import Mathlib

/-!
# Jacobi iteration (`jacobi_openmp.c`) and matrix product (`mxm_openmp.c`):
shallow embeddings and verified properties

The Jacobi program keeps three `double` buffers `b`, `x`, `xnew` of length `n`, two
`double` scalars `d`, `r`, and prints to standard output.  The embedding below

* models `double` values by exact rationals (`ℚ`), i.e. the properties are the
  exact-arithmetic ones; rounding is outside the model;
* models `int` values (`n`, `m`, `i`, `it`) by mathematical integers (`Int`): the
  sizes considered are those for which `n + 1` and `m - 10` are representable;
* models every array access as a checked operation returning `Option`
  (`none` = index outside `[0, length)`), and records each access in a log;
* executes every `# pragma omp for` loop in its sequential order `i = 0, 1, …`
  (the one-thread semantics of the program); the two reduction segments, whose
  result depends on how the threads of a team interleave, are also given for a
  team of several threads (`diffTeam`, `residTeam`, `roundTeam`).
-/

namespace Jacobi

/-- The three heap buffers of the program. -/
inductive Buf where
  | b
  | x
  | xnew
  deriving DecidableEq, Repr

/-- One array access: which buffer, which index, read or write. -/
inductive Access where
  | read (a : Buf) (i : Int)
  | write (a : Buf) (i : Int)
  deriving DecidableEq, Repr

/-- One `printf` of the program.  `line it d r` stands for
`printf ("  %8d  %14.6g  %14.6g\n", it, sqrt ( d ), sqrt ( r ))`: the model
records the two radicands.  `notice` stands for
`printf ("  Omitting intermediate results.\n")`, `entry i v` for
`printf ("  %8d  %14.6g\n", i, x[i])`, and `text` for a fixed banner line. -/
inductive Out where
  | line (it : Int) (d r : ℚ)
  | notice
  | entry (i : Int) (v : ℚ)
  | text (s : String)
  deriving DecidableEq

/-- Program state: the buffers, the shared scalars `d` and `r`, standard
output, and the log of array accesses (oldest first). -/
structure Mem where
  b : List ℚ
  x : List ℚ
  xnew : List ℚ
  d : ℚ
  r : ℚ
  out : List Out
  log : List Access

/-- Contents of a buffer. -/
def Mem.buf (s : Mem) : Buf → List ℚ
  | .b => s.b
  | .x => s.x
  | .xnew => s.xnew

/-- Replace the contents of a buffer. -/
def Mem.setBuf (s : Mem) (a : Buf) (l : List ℚ) : Mem :=
  match a with
  | .b => { s with b := l }
  | .x => { s with x := l }
  | .xnew => { s with xnew := l }

/-- A program fragment: a state transformer that may fail (`none`) on an
out-of-range array access. -/
def Prog (α : Type) : Type := Mem → Option (α × Mem)

/-- Final state of a fragment, if it does not fail. -/
def Prog.exec {α : Type} (p : Prog α) (s : Mem) : Option Mem := (p s).map Prod.snd

/-- Sequencing: a failure aborts everything after it. -/
def Prog.bind {α β : Type} (p : Prog α) (f : α → Prog β) : Prog β := fun s =>
  match p s with
  | none => none
  | some (a, s') => f a s'

instance : Monad Prog where
  pure a := fun s => some (a, s)
  bind := Prog.bind

/-- Checked read `a[i]`. -/
def load (a : Buf) (i : Int) : Prog ℚ := fun s =>
  if 0 ≤ i then
    match (s.buf a)[i.toNat]? with
    | some v => some (v, { s with log := s.log ++ [Access.read a i] })
    | none => none
  else none

/-- Checked write `a[i] = v`. -/
def store (a : Buf) (i : Int) (v : ℚ) : Prog Unit := fun s =>
  if 0 ≤ i ∧ i.toNat < (s.buf a).length then
    some ((), { s.setBuf a ((s.buf a).set i.toNat v) with
                log := s.log ++ [Access.write a i] })
  else none

/-- Read of the shared scalar `d`. -/
def getD : Prog ℚ := fun s => some (s.d, s)

/-- Assignment to the shared scalar `d`. -/
def setD (v : ℚ) : Prog Unit := fun s => some ((), { s with d := v })

/-- Read of the shared scalar `r`. -/
def getR : Prog ℚ := fun s => some (s.r, s)

/-- Assignment to the shared scalar `r`. -/
def setR (v : ℚ) : Prog Unit := fun s => some ((), { s with r := v })

/-- One `printf`. -/
def print (o : Out) : Prog Unit := fun s => some ((), { s with out := s.out ++ [o] })

/-- `cnt` consecutive executions of `body`, for `i, i+1, …, i+cnt-1`. -/
def forCount (body : Int → Prog Unit) : Nat → Int → Prog Unit
  | 0, _ => pure ()
  | k + 1, i => do body i; forCount body k (i + 1)

/-- The loop `for ( i = lo; i < hi; i++ ) body`: it runs `hi - lo` times when
`lo < hi` and not at all otherwise. -/
def forLoop (lo hi : Int) (body : Int → Prog Unit) : Prog Unit :=
  forCount body (hi - lo).toNat lo

/-- Body of the Jacobi update loop (source lines 120-129). -/
def stencilBody (n i : Int) : Prog Unit := do
  store .xnew i (← load .b i)
  if 0 < i then
    store .xnew i ((← load .xnew i) + (← load .x (i - 1)))
  if i < n - 1 then
    store .xnew i ((← load .xnew i) + (← load .x (i + 1)))
  store .xnew i ((← load .xnew i) / 2)

/-- Body of the difference loop (source line 140); `pow ( v, 2 )` is `v ^ 2`. -/
def diffBody (i : Int) : Prog Unit := do
  setD ((← getD) + ((← load .x i) - (← load .xnew i)) ^ 2)

/-- Body of the overwrite loop (source line 149). -/
def overwriteBody (i : Int) : Prog Unit := do
  store .x i (← load .xnew i)

/-- Body of the residual loop (source lines 161-170); `t` is the private
scalar of the loop. -/
def residBody (n i : Int) : Prog Unit := do
  let t := (← load .b i) - 2 * (← load .x i)
  let t ← if 0 < i then (do pure (t + (← load .x (i - 1)))) else pure t
  let t ← if i < n - 1 then (do pure (t + (← load .x (i + 1)))) else pure t
  setR ((← getR) + t * t)

/-- The `omp master` reporting block (source lines 178-185). -/
def report (m it : Int) : Prog Unit := do
  if it < 10 ∨ m - 10 < it then
    print (.line it (← getD) (← getR))
  if it = 9 then
    print .notice

/-- The Jacobi update loop (source lines 118-130). -/
def stencilLoop (n : Int) : Prog Unit := forLoop 0 n (stencilBody n)

/-- The difference reduction, with its reset `d = 0.0` (source lines 136-141), as
a team of one thread runs it: one reset, then every pass in order.  `diffTeam`
is the same segment for a team of several threads. -/
def diffLoop (n : Int) : Prog Unit := do
  setD 0
  forLoop 0 n diffBody

/-- The overwrite loop (source lines 147-150). -/
def overwriteLoop (n : Int) : Prog Unit := forLoop 0 n overwriteBody

/-- The residual reduction, with its reset `r = 0.0` (source lines 157-171), as a
team of one thread runs it: one reset, then every pass in order.  `residTeam`
is the same segment for a team of several threads. -/
def residLoop (n : Int) : Prog Unit := do
  setR 0
  forLoop 0 n (residBody n)

/-- One round: the body of the `it` loop (source lines 105-188), as a team of one
thread runs it.  `roundTeam` is the round for a team of several threads. -/
def round (n m it : Int) : Prog Unit := do
  stencilLoop n
  diffLoop n
  overwriteLoop n
  residLoop n
  report m it

/-- The iteration loop `for ( it = 0; it < m; it++ )` (source lines 99-190). -/
def iterate (n m : Int) : Prog Unit := forLoop 0 m (round n m)

/-- The set-up block (source lines 68-91). -/
def init (n : Int) : Prog Unit := do
  forLoop 0 n (fun i => store .b i 0)
  store .b (n - 1) ((n + 1 : Int) : ℚ)
  forLoop 0 n (fun i => store .x i 0)

/-- The closing print of part of `x` (source lines 195-206). -/
def printFinal (n : Int) : Prog Unit := do
  print (.text "")
  print (.text "  Part of final solution estimate:")
  print (.text "")
  forLoop 0 10 (fun i => do print (.entry i (← load .x i)))
  print (.text "...")
  forLoop (n - 11) n (fun i => do print (.entry i (← load .x i)))

/-- The opening banner (source lines 52-62). -/
def banner (n m : Int) : Prog Unit := do
  print (.text "")
  print (.text "JACOBI_OPENMP:")
  print (.text "  C/OpenMP version")
  print (.text "  Jacobi iteration to solve A*x=b.")
  print (.text "")
  print (.text ("  Number of variables  N = " ++ toString n))
  print (.text ("  Number of iterations M = " ++ toString m))
  print (.text "")
  print (.text "  IT     l2(dX)    l2(resid)")
  print (.text "")

/-- The closing banner (source lines 216-218). -/
def footer : Prog Unit := do
  print (.text "")
  print (.text "JACOBI_OPENMP:")
  print (.text "  Normal end of execution.")

/-- The whole of `main` after the three `malloc`s, with `n` and `m` as
parameters (the source fixes `m = 5000`, `n = 50000`). -/
def mainProg (n m : Int) : Prog Unit := do
  banner n m
  init n
  iterate n m
  printFinal n
  footer

/-! ## The functions the program is compared with -/

/-- The stencil formula of one entry:
`( b[i] + (i>0 ? x[i-1] : 0) + (i<N-1 ? x[i+1] : 0) ) / 2`. -/
def jacobiAt (N : Nat) (b x : List ℚ) (i : Nat) : ℚ :=
  (b.getD i 0 + (if 0 < i then x.getD (i - 1) 0 else 0)
    + (if i < N - 1 then x.getD (i + 1) 0 else 0)) / 2

/-- The Jacobi map `x ↦ stencil(b, x)` on vectors of length `N`. -/
def jacobi (N : Nat) (b x : List ℚ) : List ℚ :=
  (List.range N).map (jacobiAt N b x)

/-- The residual entry
`t(i) = b[i] − 2·x[i] + (i>0 ? x[i-1] : 0) + (i<N-1 ? x[i+1] : 0)`. -/
def residAt (N : Nat) (b x : List ℚ) (i : Nat) : ℚ :=
  b.getD i 0 - 2 * x.getD i 0 + (if 0 < i then x.getD (i - 1) 0 else 0)
    + (if i < N - 1 then x.getD (i + 1) 0 else 0)

/-- The sum of `f 0, …, f (k-1)`, added in that order starting from `0`. -/
def sumTo (f : Nat → ℚ) : Nat → ℚ
  | 0 => 0
  | k + 1 => sumTo f k + f k

/-- The residual scalar `Σ t(i)²`. -/
def residSq (N : Nat) (b x : List ℚ) : ℚ :=
  sumTo (fun i => residAt N b x i * residAt N b x i) N

/-- The delta scalar `Σ (x[i] − xnew[i])²`. -/
def deltaSq (N : Nat) (x xnew : List ℚ) : ℚ :=
  sumTo (fun i => (x.getD i 0 - xnew.getD i 0) ^ 2) N

/-- Accesses of one pass of the Jacobi update body, in program order. -/
def stencilAcc (n i : Int) : List Access :=
  [.read .b i, .write .xnew i]
    ++ (if 0 < i then [.read .xnew i, .read .x (i - 1), .write .xnew i] else [])
    ++ (if i < n - 1 then [.read .xnew i, .read .x (i + 1), .write .xnew i] else [])
    ++ [.read .xnew i, .write .xnew i]

/-- Accesses of one pass of the residual body, in program order. -/
def residAcc (n i : Int) : List Access :=
  [.read .b i, .read .x i]
    ++ (if 0 < i then [.read .x (i - 1)] else [])
    ++ (if i < n - 1 then [.read .x (i + 1)] else [])

/-- Accesses of a loop `for ( i = 0; i < k; i++ )` whose pass `i` makes the
accesses `acc i`. -/
def loopAcc (acc : Int → List Access) : Nat → List Access
  | 0 => []
  | k + 1 => loopAcc acc k ++ acc k

/-- Accesses of one pass of the difference body, in program order. -/
def diffAcc (i : Int) : List Access := [.read .x i, .read .xnew i]

/-- Accesses of one pass of the overwrite body, in program order. -/
def overwriteAcc (i : Int) : List Access := [.read .xnew i, .write .x i]

/-- Accesses of one round on buffers of length `N`, in program order. -/
def roundAcc (N : Nat) : List Access :=
  loopAcc (stencilAcc N) N ++ loopAcc diffAcc N ++ loopAcc overwriteAcc N
    ++ loopAcc (residAcc N) N

/-- What the reporting block prints in round `it` of `m`, given the scalars. -/
def reportOut (m it : Int) (d r : ℚ) : List Out :=
  (if it < 10 ∨ m - 10 < it then [Out.line it d r] else [])
    ++ (if it = 9 then [Out.notice] else [])

/-- The state after one round, as a function of the state before it. -/
def roundResult (N : Nat) (m it : Int) (s : Mem) : Mem :=
  { b := s.b
    x := jacobi N s.b s.x
    xnew := jacobi N s.b s.x
    d := deltaSq N s.x (jacobi N s.b s.x)
    r := residSq N s.b (jacobi N s.b s.x)
    out := s.out ++ reportOut m it (deltaSq N s.x (jacobi N s.b s.x))
                      (residSq N s.b (jacobi N s.b s.x))
    log := s.log ++ roundAcc N }

/-- The state after the first `k` rounds `it = 0, …, k-1`. -/
def iterState (N : Nat) (m : Int) (s : Mem) : Nat → Mem
  | 0 => s
  | k + 1 => roundResult N m (k : Int) (iterState N m s k)

/-- Accesses of the set-up block on buffers of length `N`, in program order. -/
def initAcc (N : Nat) : List Access :=
  loopAcc (fun i => [Access.write .b i]) N ++ [Access.write .b ((N : Int) - 1)]
    ++ loopAcc (fun i => [Access.write .x i]) N

/-- The state after the set-up block, as a function of the state before it. -/
def initResult (N : Nat) (s : Mem) : Mem :=
  { s with b := (List.replicate N (0 : ℚ)).set (N - 1) (((N : Int) + 1 : Int) : ℚ)
           x := List.replicate N (0 : ℚ)
           log := s.log ++ initAcc N }

/-- The exact solution `(1, 2, …, N)` named in the source comment. -/
def xstar (N : Nat) : List ℚ := (List.range N).map (fun (i : Nat) => (i : ℚ) + 1)

/-- The materialised `N × N` tridiagonal matrix `A`: `2` on the diagonal, `-1`
on both adjacent diagonals, `0` elsewhere; a list of rows. -/
def triMatrix (N : Nat) : List (List ℚ) :=
  (List.range N).map (fun i =>
    (List.range N).map (fun j =>
      if i = j then (2 : ℚ) else if i + 1 = j ∨ j + 1 = i then -1 else 0))

/-- Inner product of two vectors. -/
def dot (u v : List ℚ) : ℚ := (List.zipWith (fun a c => a * c) u v).sum

/-- Matrix-vector product `A·x`, `A` a list of rows. -/
def matVec (A : List (List ℚ)) (x : List ℚ) : List ℚ := A.map (fun row => dot row x)

/-- Entrywise difference `u − v`. -/
def vecSub (u v : List ℚ) : List ℚ := List.zipWith (fun a c => a - c) u v

/-- Squared Euclidean norm. -/
def normSq (v : List ℚ) : ℚ := (v.map (fun t => t ^ 2)).sum

/-- The round numbers of the report lines in an output, in order. -/
def lineRounds : List Out → List Int
  | [] => []
  | Out.line it _ _ :: o => it :: lineRounds o
  | _ :: o => lineRounds o

/-- The number of suppression notices in an output. -/
def noticeCount : List Out → Nat
  | [] => 0
  | Out.notice :: o => noticeCount o + 1
  | _ :: o => noticeCount o

/-- The number of writes to buffer `a` in an access log. -/
def writeCount (a : Buf) : List Access → Nat
  | [] => 0
  | Access.write a' _ :: l => (if a' = a then 1 else 0) + writeCount a l
  | Access.read _ _ :: l => writeCount a l

/-- The index of an access. -/
def Access.index : Access → Int
  | .read _ i => i
  | .write _ i => i

/-- The indices at which a log reads buffer `x`, in order. -/
def xReads : List Access → List Int
  | [] => []
  | Access.read Buf.x i :: l => i :: xReads l
  | _ :: l => xReads l

/-- The indices other than `i` at which a log reads `x`: the neighbours read by
pass `i` of a loop. -/
def neighbourReads (i : Int) (l : List Access) : List Int :=
  (xReads l).filter (fun j => decide (j ≠ i))

/-- The start of the `N = 10` scenario: three zero-filled buffers. -/
def start10 : Mem :=
  { b := List.replicate 10 0, x := List.replicate 10 0, xnew := List.replicate 10 0,
    d := 0, r := 0, out := [], log := [] }

/-- What the closing print writes for a final `x` of length `N ≥ 11`: three
heading lines, the entries `0..9`, the line `...`, the entries `N-11..N-1`. -/
def finalOut (N : Nat) (x : List ℚ) : List Out :=
  [Out.text "", Out.text "  Part of final solution estimate:", Out.text ""]
    ++ (List.range 10).map (fun (i : Nat) => Out.entry (i : Int) (x.getD i 0))
    ++ [Out.text "..."]
    ++ (List.range 11).map
        (fun (j : Nat) => Out.entry ((N : Int) - 11 + (j : Int)) (x.getD (N - 11 + j) 0))

/-- The accesses of the closing print for `N ≥ 11`: reads of `x` at `0..9` and
at `N-11..N-1`. -/
def finalAcc (N : Nat) : List Access :=
  (List.range 10).map (fun (i : Nat) => Access.read Buf.x (i : Int))
    ++ (List.range 11).map (fun (j : Nat) => Access.read Buf.x ((N : Int) - 11 + (j : Int)))

/-- The lines of the opening banner. -/
def bannerOut (n m : Int) : List Out :=
  [Out.text "", Out.text "JACOBI_OPENMP:", Out.text "  C/OpenMP version",
   Out.text "  Jacobi iteration to solve A*x=b.", Out.text "",
   Out.text ("  Number of variables  N = " ++ toString n),
   Out.text ("  Number of iterations M = " ++ toString m), Out.text "",
   Out.text "  IT     l2(dX)    l2(resid)", Out.text ""]

/-- The lines of the closing banner. -/
def footerOut : List Out :=
  [Out.text "", Out.text "JACOBI_OPENMP:", Out.text "  Normal end of execution."]

/-- The right-hand side built by the set-up block for size `N`. -/
def initB (N : Nat) : List ℚ :=
  (List.replicate N (0 : ℚ)).set (N - 1) (((N : Int) + 1 : Int) : ℚ)

/-- The state at the end of `mainProg` for `N ≥ 11`, as a function of the state
after the three `malloc`s. -/
def mainResult (N M : Nat) (s : Mem) : Mem :=
  { iterState N M (initResult N { s with out := s.out ++ bannerOut N M }) M with
    out := (iterState N M (initResult N { s with out := s.out ++ bannerOut N M }) M).out
            ++ finalOut N (iterState N M
                (initResult N { s with out := s.out ++ bannerOut N M }) M).x
            ++ footerOut
    log := (iterState N M (initResult N { s with out := s.out ++ bannerOut N M }) M).log
            ++ finalAcc N }

/-- Run `body` for the iterations `its`, in this order: the share of one thread
in an `omp for` loop. -/
def forEach (body : Int → Prog Unit) : List Int → Prog Unit
  | [] => pure ()
  | i :: rest => do body i; forEach body rest

/-- One action of a thread on the shared scalar of a reduction segment
(`d = 0.0; # pragma omp for reduction ( + : d )`, lines 136-141, and the same
for `r`, lines 157-171).  `reset t`: thread `t` executes the assignment
`d = 0.0`, which stands inside `# pragma omp parallel` and outside any `single`
or `master`, so every thread of the team executes it.  `combine t`: thread `t`,
having run its share of the loop on its private copy, adds that copy into the
shared scalar.  No barrier stands between the assignment and the loop. -/
inductive TeamStep where
  | reset (t : Nat)
  | combine (t : Nat)
  deriving DecidableEq, Repr

/-- Whether `sched` is an interleaving the program allows for a team of `K`
threads: it holds exactly the `2 K` steps `reset t`, `combine t` for `t < K`,
and every thread resets before it combines. -/
def admissible (K : Nat) (sched : List TeamStep) : Bool :=
  sched.length == 2 * K &&
    (List.range K).all (fun t =>
      decide (sched.indexOf (TeamStep.reset t) < sched.indexOf (TeamStep.combine t)) &&
        decide (sched.indexOf (TeamStep.combine t) < sched.length))

/-- The shared scalar after the steps of `sched`, from the value `d0`, when
thread `t` contributes the partial sum `parts[t]`. -/
def teamFold (parts : List ℚ) (sched : List TeamStep) (d0 : ℚ) : ℚ :=
  sched.foldl (fun d e =>
    match e with
    | TeamStep.reset _ => 0
    | TeamStep.combine t => d + parts.getD t 0) d0

/-- The share of one thread in the difference loop: its passes `its` run on a
private copy of `d` initialised to `0`; the result is that copy, the shared
`d` is left as it was. -/
def diffThread (its : List Int) : Prog ℚ := fun s =>
  match forEach diffBody its { s with d := 0 } with
  | none => none
  | some (_, s') => some (s'.d, { s' with d := s.d })

/-- The share of one thread in the residual loop: its passes `its` run on a
private copy of `r` initialised to `0`; the result is that copy, the shared
`r` is left as it was. -/
def residThread (n : Int) (its : List Int) : Prog ℚ := fun s =>
  match forEach (residBody n) its { s with r := 0 } with
  | none => none
  | some (_, s') => some (s'.r, { s' with r := s.r })

/-- The partial sums of the threads of a team, thread `t` owning the passes
`chunks[t]`. -/
def runThreads (thread : List Int → Prog ℚ) : List (List Int) → Prog (List ℚ)
  | [] => pure []
  | its :: rest => do
    let p ← thread its
    let ps ← runThreads thread rest
    pure (p :: ps)

/-- The difference reduction (source lines 136-141) run by a team: thread `t`
owns the passes `chunks[t]`, and the resets and combines happen in the order
`sched`. -/
def diffTeam (chunks : List (List Int)) (sched : List TeamStep) : Prog Unit := do
  let parts ← runThreads diffThread chunks
  setD (teamFold parts sched (← getD))

/-- The residual reduction (source lines 157-171) run by a team: thread `t` owns
the passes `chunks[t]`, and the resets and combines happen in the order
`sched`. -/
def residTeam (n : Int) (chunks : List (List Int)) (sched : List TeamStep) : Prog Unit := do
  let parts ← runThreads (residThread n) chunks
  setR (teamFold parts sched (← getR))

/-- One round run by a team (source lines 105-188).  The stencil and overwrite
loops write each index in one pass and end in a barrier, so their result is
that of the sequential loop; the two reductions depend on the schedules
`schedD` and `schedR`. -/
def roundTeam (n m it : Int) (chunks : List (List Int)) (schedD schedR : List TeamStep) :
    Prog Unit := do
  stencilLoop n
  diffTeam chunks schedD
  overwriteLoop n
  residTeam n chunks schedR
  report m it

/-- The passes `0, …, N-1`: the share of the only thread of a team of one. -/
def fullChunk (N : Nat) : List Int := (List.range N).map (fun (k : Nat) => (k : Int))

/-- The schedule of a team of one thread. -/
def oneThread : List TeamStep := [TeamStep.reset 0, TeamStep.combine 0]

/-- A schedule of two threads in which both reset before either combines. -/
def resetsFirst : List TeamStep :=
  [TeamStep.reset 0, TeamStep.reset 1, TeamStep.combine 0, TeamStep.combine 1]

/-- A schedule of two threads in which thread `0` resets after thread `1` has
combined. -/
def lateReset0 : List TeamStep :=
  [TeamStep.reset 1, TeamStep.combine 1, TeamStep.reset 0, TeamStep.combine 0]

/-- A schedule of two threads in which thread `1` resets after thread `0` has
combined. -/
def lateReset1 : List TeamStep :=
  [TeamStep.reset 0, TeamStep.combine 0, TeamStep.reset 1, TeamStep.combine 1]

/-- The two passes of a loop over `N = 2` split between two threads: thread `0`
owns `i = 0`, thread `1` owns `i = 1`. -/
def chunks2 : List (List Int) := [[0], [1]]

/-- The start of the `N = 2` scenario: three buffers of length `2`. -/
def start2 : Mem :=
  { b := [0, 0], x := [0, 0], xnew := [0, 0], d := 0, r := 0, out := [], log := [] }

/-- A state to try the loops on: `N = 3`, arbitrary buffer contents. -/
def sample3 : Mem :=
  { b := [4, -1, 7], x := [1, 5, -2], xnew := [9, 9, 9], d := 3, r := 8, out := [], log := [] }

end Jacobi

/-! ## Matrix product (`mxm_openmp.c`): shallow embedding

The three matrices `a`, `b`, `c` are lists of rows of rationals; the order `n` is
a parameter (the source fixes `n = 500`).  Loop 1, which fills `a` with values of
`sin` and `cos`, is not part of the model: `a` as it stands after loop 1 is the
input.  Every array access is checked and the loops run in sequential order. -/

namespace Mxm

/-- Program state: the three matrices. -/
structure Mats where
  a : List (List ℚ)
  b : List (List ℚ)
  c : List (List ℚ)

/-- Checked read `m[i][j]`. -/
def get2 (m : List (List ℚ)) (i j : Int) : Option ℚ :=
  if 0 ≤ i ∧ 0 ≤ j then
    match m[i.toNat]? with
    | some row => row[j.toNat]?
    | none => none
  else none

/-- Checked write `m[i][j] = v`. -/
def set2 (m : List (List ℚ)) (i j : Int) (v : ℚ) : Option (List (List ℚ)) :=
  if 0 ≤ i ∧ 0 ≤ j then
    match m[i.toNat]? with
    | some row =>
      if j.toNat < row.length then some (m.set i.toNat (row.set j.toNat v)) else none
    | none => none
  else none

/-- `cnt` consecutive executions of `body`, for `i, i+1, …, i+cnt-1`. -/
def forCount (body : Int → Mats → Option Mats) : Nat → Int → Mats → Option Mats
  | 0, _, s => some s
  | k + 1, i, s => (body i s).bind (forCount body k (i + 1))

/-- The loop `for ( i = lo; i < hi; i++ ) body`. -/
def forLoop (lo hi : Int) (body : Int → Mats → Option Mats) (s : Mats) : Option Mats :=
  forCount body (hi - lo).toNat lo s

/-- Body of loop 2 (source line 111): `b[i][j] = a[i][j]`. -/
def loop2Body (i j : Int) (s : Mats) : Option Mats := do
  let v ← get2 s.a i j
  let b' ← set2 s.b i j v
  pure { s with b := b' }

/-- Loop 2 (source lines 107-113): copy `a` into `b`. -/
def loop2 (n : Int) (s : Mats) : Option Mats :=
  forLoop 0 n (fun i => forLoop 0 n (loop2Body i)) s

/-- Body of the `k` loop of loop 3 (source line 134):
`c[i][j] = c[i][j] + a[i][k] * b[k][j]`. -/
def loop3Inner (i j k : Int) (s : Mats) : Option Mats := do
  let cij ← get2 s.c i j
  let aik ← get2 s.a i k
  let bkj ← get2 s.b k j
  let c' ← set2 s.c i j (cij + aik * bkj)
  pure { s with c := c' }

/-- Body of the `j` loop of loop 3 (source lines 130-135). -/
def loop3Entry (n i j : Int) (s : Mats) : Option Mats := do
  let c0 ← set2 s.c i j 0
  forLoop 0 n (loop3Inner i j) { s with c := c0 }

/-- Loop 3 (source lines 124-137): `c = a * b`. -/
def loop3 (n : Int) (s : Mats) : Option Mats :=
  forLoop 0 n (fun i => forLoop 0 n (loop3Entry n i)) s

/-- Loops 2 and 3 of `main`, in order. -/
def mxm (n : Int) (s : Mats) : Option Mats := do
  let s1 ← loop2 n s
  loop3 n s1

/-- The entry `m[i][j]` of a matrix (`0` outside it). -/
def entry (m : List (List ℚ)) (i j : Nat) : ℚ := (m.getD i []).getD j 0

/-- A matrix of order `n`: `n` rows of length `n`. -/
def Square (n : Nat) (m : List (List ℚ)) : Prop :=
  m.length = n ∧ ∀ i : Nat, i < n → (m.getD i []).length = n

/-- The product entry `Σ_{k<n} a[i][k] * b[k][j]`, summed in the order of the
`k` loop. -/
def prodAt (n : Nat) (a b : List (List ℚ)) (i j : Nat) : ℚ :=
  Jacobi.sumTo (fun k => entry a i k * entry b k j) n

/-- The product matrix `a * b` of order `n`. -/
def matMul (n : Nat) (a b : List (List ℚ)) : List (List ℚ) :=
  (List.range n).map (fun i => (List.range n).map (fun j => prodAt n a b i j))

/-- Matrices to try the loops on: order `2`, `c` holding arbitrary values. -/
def sample2 : Mats :=
  { a := [[1, 2], [3, 4]], b := [[0, 1], [-1, 5]], c := [[7, 7], [7, 7]] }

end Mxm

namespace Jacobi

/-! ## Basic facts about fragments -/

theorem Prog.pure_apply {α : Type} (a : α) (s : Mem) :
    (pure a : Prog α) s = some (a, s) := rfl

theorem Prog.bind_apply {α β : Type} (p : Prog α) (f : α → Prog β) (s : Mem) :
    (p >>= f) s = (p s).bind (fun r => f r.1 r.2) := by
  show Prog.bind p f s = _
  unfold Prog.bind
  cases p s <;> rfl

theorem load_apply (a : Buf) (i : Int) (s : Mem) (h : 0 ≤ i) :
    load a i s
      = ((s.buf a)[i.toNat]?).map
          (fun v => (v, { s with log := s.log ++ [Access.read a i] })) := by
  unfold load
  rw [if_pos h]
  cases (s.buf a)[i.toNat]? <;> rfl

theorem store_apply (a : Buf) (i : Int) (v : ℚ) (s : Mem) (h : 0 ≤ i) :
    store a i v s
      = if i.toNat < (s.buf a).length then
          some ((), { s.setBuf a ((s.buf a).set i.toNat v) with
                      log := s.log ++ [Access.write a i] })
        else none := by
  unfold store
  simp only [h, true_and]

theorem getElem?_of_lt (l : List ℚ) (k : Nat) (h : k < l.length) :
    l[k]? = some (l.getD k 0) := by
  rw [List.getD_eq_getElem?_getD, List.getElem?_eq_getElem h]; rfl

theorem stencilBody_eq (N k : Nat) (hk : k < N) (s : Mem)
    (hb : s.b.length = N) (hx : s.x.length = N) (hxn : s.xnew.length = N) :
    stencilBody N k s
      = some ((), { s with xnew := s.xnew.set k (jacobiAt N s.b s.x k),
                           log := s.log ++ stencilAcc N k }) := by
  have hbk : s.b[k]? = some (s.b.getD k 0) := getElem?_of_lt _ _ (by omega)
  have p0 : (0 : Int) ≤ k := by omega
  have p2 : (0 : Int) ≤ (k : Int) + 1 := by omega
  have t2 : ((k : Int) + 1).toNat = k + 1 := by omega
  have hkx : k < s.xnew.length := by omega
  by_cases h0 : 0 < k <;> by_cases h1 : k < N - 1
  · have c0 : (0 : Int) < k := by omega
    have c1 : (k : Int) < (N : Int) - 1 := by omega
    have p1 : (0 : Int) ≤ (k : Int) - 1 := by omega
    have t1 : ((k : Int) - 1).toNat = k - 1 := by omega
    have hx0 : s.x[k - 1]? = some (s.x.getD (k - 1) 0) := getElem?_of_lt _ _ (by omega)
    have hx1 : s.x[k + 1]? = some (s.x.getD (k + 1) 0) := getElem?_of_lt _ _ (by omega)
    simp only [stencilBody, Prog.bind_apply, Prog.pure_apply, load_apply, store_apply, p0, p1, p2,
      t1, t2, Int.toNat_natCast, Mem.buf, Mem.setBuf, hbk, c0, c1, if_true, Option.map_some',
      Option.some_bind, List.length_set, hkx, hx0, hx1, List.getElem?_set_self, List.set_set,
      stencilAcc, jacobiAt, h0, h1, List.append_assoc, List.singleton_append, List.cons_append,
      List.nil_append]
  · have c0 : (0 : Int) < k := by omega
    have c1 : ¬ (k : Int) < (N : Int) - 1 := by omega
    have p1 : (0 : Int) ≤ (k : Int) - 1 := by omega
    have t1 : ((k : Int) - 1).toNat = k - 1 := by omega
    have hx0 : s.x[k - 1]? = some (s.x.getD (k - 1) 0) := getElem?_of_lt _ _ (by omega)
    simp only [stencilBody, Prog.bind_apply, Prog.pure_apply, load_apply, store_apply, p0, p1,
      t1, Int.toNat_natCast, Mem.buf, Mem.setBuf, hbk, c0, c1, if_true, if_false,
      Option.map_some', Option.some_bind, List.length_set, hkx, hx0, List.getElem?_set_self,
      List.set_set, stencilAcc, jacobiAt, h0, h1, List.append_assoc, List.singleton_append,
      List.cons_append, List.nil_append, add_zero, List.append_nil]
  · have c0 : ¬ (0 : Int) < k := by omega
    have c1 : (k : Int) < (N : Int) - 1 := by omega
    have hx1 : s.x[k + 1]? = some (s.x.getD (k + 1) 0) := getElem?_of_lt _ _ (by omega)
    simp only [stencilBody, Prog.bind_apply, Prog.pure_apply, load_apply, store_apply, p0, p2,
      t2, Int.toNat_natCast, Mem.buf, Mem.setBuf, hbk, c0, c1, if_true, if_false,
      Option.map_some', Option.some_bind, List.length_set, hkx, hx1, List.getElem?_set_self,
      List.set_set, stencilAcc, jacobiAt, h0, h1, List.append_assoc, List.singleton_append,
      List.cons_append, List.nil_append, add_zero, List.append_nil]
  · have c0 : ¬ (0 : Int) < k := by omega
    have c1 : ¬ (k : Int) < (N : Int) - 1 := by omega
    simp only [stencilBody, Prog.bind_apply, Prog.pure_apply, load_apply, store_apply, p0,
      Int.toNat_natCast, Mem.buf, Mem.setBuf, hbk, c0, c1, if_true, if_false,
      Option.map_some', Option.some_bind, List.length_set, hkx, List.getElem?_set_self,
      List.set_set, stencilAcc, jacobiAt, h0, h1, List.append_assoc, List.singleton_append,
      List.cons_append, List.nil_append, add_zero, List.append_nil]

theorem forCount_eq (body : Int → Prog Unit) :
    ∀ (cnt : Nat) (lo : Int) (st : Nat → Mem),
      (∀ k, k < cnt → body (lo + k) (st k) = some ((), st (k + 1))) →
      forCount body cnt lo (st 0) = some ((), st cnt) := by
  intro cnt
  induction cnt with
  | zero => intro lo st _; rfl
  | succ c ih =>
    intro lo st h
    have h0 := h 0 (Nat.succ_pos c)
    simp only [Nat.cast_zero, add_zero] at h0
    have hrest := ih (lo + 1) (fun k => st (k + 1)) (fun k hk => by
      have := h (k + 1) (Nat.succ_lt_succ hk)
      rw [show lo + ((k + 1 : Nat) : Int) = lo + 1 + (k : Int) by push_cast; ring] at this
      exact this)
    show (body lo >>= fun _ => forCount body c (lo + 1)) (st 0) = _
    rw [Prog.bind_apply, h0]
    exact hrest

theorem forLoop_eq (body : Int → Prog Unit) (N : Nat) (s : Mem) (st : Nat → Mem)
    (h0 : st 0 = s)
    (h : ∀ k, k < N → body (k : Int) (st k) = some ((), st (k + 1))) :
    forLoop 0 (N : Int) body s = some ((), st N) := by
  unfold forLoop
  rw [sub_zero, Int.toNat_natCast, ← h0]
  exact forCount_eq body N 0 st (fun k hk => by rw [zero_add]; exact h k hk)

theorem set_after_fill (v : ℚ) :
    ∀ (P X : List ℚ), P.length < X.length →
      (P ++ X.drop P.length).set P.length v = (P ++ [v]) ++ X.drop (P.length + 1) := by
  intro P
  induction P with
  | nil =>
    intro X h
    cases X with
    | nil => simp at h
    | cons c X => simp
  | cons p P ih =>
    intro X h
    cases X with
    | nil => simp at h
    | cons c X =>
      have := ih X (by simpa using h)
      simpa using this

theorem set_fill (f : Nat → ℚ) (X : List ℚ) (k : Nat) (h : k < X.length) :
    ((List.range k).map f ++ X.drop k).set k (f k)
      = (List.range (k + 1)).map f ++ X.drop (k + 1) := by
  have := set_after_fill (f k) ((List.range k).map f) X (by simpa using h)
  simp only [List.length_map, List.length_range] at this
  rw [this, List.range_succ, List.map_append, List.map_singleton]

theorem fill_length (f : Nat → ℚ) (X : List ℚ) (k : Nat) (h : k ≤ X.length) :
    ((List.range k).map f ++ X.drop k).length = X.length := by
  simp only [List.length_append, List.length_map, List.length_range, List.length_drop]
  omega

theorem stencilLoop_eq (N : Nat) (s : Mem)
    (hb : s.b.length = N) (hx : s.x.length = N) (hxn : s.xnew.length = N) :
    stencilLoop N s
      = some ((), { s with xnew := jacobi N s.b s.x,
                           log := s.log ++ loopAcc (stencilAcc N) N }) := by
  have key := forLoop_eq (stencilBody N) N s
    (fun k => { s with xnew := (List.range k).map (jacobiAt N s.b s.x) ++ s.xnew.drop k,
                       log := s.log ++ loopAcc (stencilAcc N) k })
    (by simp [loopAcc])
    (fun k hk => by
      beta_reduce
      refine (stencilBody_eq N k hk _ ?_ ?_ ?_).trans ?_
      · exact hb
      · exact hx
      · exact (fill_length _ _ _ (by omega)).trans hxn
      · simp only [set_fill _ _ _ (show k < s.xnew.length by omega), loopAcc,
          List.append_assoc])
  unfold stencilLoop
  rw [key]
  simp [jacobi, ← hxn]

theorem diffBody_eq (k : Nat) (s : Mem) (hx : k < s.x.length) (hxn : k < s.xnew.length) :
    diffBody k s
      = some ((), { s with d := s.d + (s.x.getD k 0 - s.xnew.getD k 0) ^ 2,
                           log := s.log ++ diffAcc k }) := by
  have p0 : (0 : Int) ≤ k := by omega
  simp only [diffBody, getD, setD, Prog.bind_apply, load_apply, p0, Int.toNat_natCast, Mem.buf,
    getElem?_of_lt _ _ hx, getElem?_of_lt _ _ hxn, Option.map_some', Option.some_bind, diffAcc,
    List.append_assoc, List.singleton_append]

theorem overwriteBody_eq (k : Nat) (s : Mem) (hx : k < s.x.length) (hxn : k < s.xnew.length) :
    overwriteBody k s
      = some ((), { s with x := s.x.set k (s.xnew.getD k 0),
                           log := s.log ++ overwriteAcc k }) := by
  have p0 : (0 : Int) ≤ k := by omega
  simp only [overwriteBody, Prog.bind_apply, load_apply, store_apply, p0, Int.toNat_natCast,
    Mem.buf, Mem.setBuf, getElem?_of_lt _ _ hxn, Option.map_some', Option.some_bind, hx, if_true,
    overwriteAcc, List.append_assoc, List.singleton_append]

theorem residBody_eq (N k : Nat) (hk : k < N) (s : Mem)
    (hb : s.b.length = N) (hx : s.x.length = N) :
    residBody N k s
      = some ((), { s with r := s.r + residAt N s.b s.x k * residAt N s.b s.x k,
                           log := s.log ++ residAcc N k }) := by
  have hbk : s.b[k]? = some (s.b.getD k 0) := getElem?_of_lt _ _ (by omega)
  have hxk : s.x[k]? = some (s.x.getD k 0) := getElem?_of_lt _ _ (by omega)
  have p0 : (0 : Int) ≤ k := by omega
  have p2 : (0 : Int) ≤ (k : Int) + 1 := by omega
  have t2 : ((k : Int) + 1).toNat = k + 1 := by omega
  by_cases h0 : 0 < k <;> by_cases h1 : k < N - 1
  · have c0 : (0 : Int) < k := by omega
    have c1 : (k : Int) < (N : Int) - 1 := by omega
    have p1 : (0 : Int) ≤ (k : Int) - 1 := by omega
    have t1 : ((k : Int) - 1).toNat = k - 1 := by omega
    have hx0 : s.x[k - 1]? = some (s.x.getD (k - 1) 0) := getElem?_of_lt _ _ (by omega)
    have hx1 : s.x[k + 1]? = some (s.x.getD (k + 1) 0) := getElem?_of_lt _ _ (by omega)
    simp only [residBody, getR, setR, Prog.bind_apply, Prog.pure_apply, load_apply, p0, p1, p2,
      t1, t2, Int.toNat_natCast, Mem.buf, hbk, hxk, c0, c1, if_true, Option.map_some',
      Option.some_bind, hx0, hx1, residAcc, residAt, h0, h1, List.append_assoc,
      List.singleton_append, List.cons_append, List.nil_append]
  · have c0 : (0 : Int) < k := by omega
    have c1 : ¬ (k : Int) < (N : Int) - 1 := by omega
    have p1 : (0 : Int) ≤ (k : Int) - 1 := by omega
    have t1 : ((k : Int) - 1).toNat = k - 1 := by omega
    have hx0 : s.x[k - 1]? = some (s.x.getD (k - 1) 0) := getElem?_of_lt _ _ (by omega)
    simp only [residBody, getR, setR, Prog.bind_apply, Prog.pure_apply, load_apply, p0, p1,
      t1, Int.toNat_natCast, Mem.buf, hbk, hxk, c0, c1, if_true, if_false, Option.map_some',
      Option.some_bind, hx0, residAcc, residAt, h0, h1, List.append_assoc,
      List.singleton_append, List.cons_append, List.nil_append, add_zero, List.append_nil]
  · have c0 : ¬ (0 : Int) < k := by omega
    have c1 : (k : Int) < (N : Int) - 1 := by omega
    have hx1 : s.x[k + 1]? = some (s.x.getD (k + 1) 0) := getElem?_of_lt _ _ (by omega)
    simp only [residBody, getR, setR, Prog.bind_apply, Prog.pure_apply, load_apply, p0, p2,
      t2, Int.toNat_natCast, Mem.buf, hbk, hxk, c0, c1, if_true, if_false, Option.map_some',
      Option.some_bind, hx1, residAcc, residAt, h0, h1, List.append_assoc,
      List.singleton_append, List.cons_append, List.nil_append, add_zero, List.append_nil]
  · have c0 : ¬ (0 : Int) < k := by omega
    have c1 : ¬ (k : Int) < (N : Int) - 1 := by omega
    simp only [residBody, getR, setR, Prog.bind_apply, Prog.pure_apply, load_apply, p0,
      Int.toNat_natCast, Mem.buf, hbk, hxk, c0, c1, if_true, if_false, Option.map_some',
      Option.some_bind, residAcc, residAt, h0, h1, List.append_assoc,
      List.singleton_append, List.cons_append, List.nil_append, add_zero, List.append_nil]

theorem report_eq (m it : Int) (s : Mem) :
    report m it s = some ((), { s with out := s.out ++ reportOut m it s.d s.r }) := by
  by_cases h1 : it = 9
  · subst h1
    have h0 : (9 : Int) < 10 ∨ m - 10 < 9 := Or.inl (by decide)
    simp only [report, getD, getR, print, Prog.bind_apply, h0, if_true,
      Option.some_bind, reportOut, List.append_assoc]
  · by_cases h0 : it < 10 ∨ m - 10 < it <;>
      simp only [report, getD, getR, print, Prog.bind_apply, Prog.pure_apply, h0, h1, if_true,
        if_false, Option.some_bind, reportOut, List.append_assoc, List.append_nil,
        List.nil_append]

theorem map_getD_range (l : List ℚ) (N : Nat) (h : l.length = N) :
    (List.range N).map (fun i => l.getD i 0) = l := by
  apply List.ext_getElem
  · simp [h]
  · intro i h1 h2
    simp [List.getD_eq_getElem?_getD, List.getElem?_eq_getElem h2]

theorem map_const_range (N : Nat) (c : ℚ) :
    (List.range N).map (fun _ => c) = List.replicate N c := by
  apply List.ext_getElem
  · simp
  · intro i h1 h2
    simp

theorem diffLoop_eq (N : Nat) (s : Mem) (hx : s.x.length = N) (hxn : s.xnew.length = N) :
    diffLoop N s
      = some ((), { s with d := deltaSq N s.x s.xnew,
                           log := s.log ++ loopAcc diffAcc N }) := by
  have key := forLoop_eq diffBody N { s with d := 0 }
    (fun k => { s with d := sumTo (fun i => (s.x.getD i 0 - s.xnew.getD i 0) ^ 2) k,
                       log := s.log ++ loopAcc diffAcc k })
    (by simp [loopAcc, sumTo])
    (fun k hk => by
      beta_reduce
      refine (diffBody_eq k _ ?_ ?_).trans ?_
      · show k < s.x.length
        omega
      · show k < s.xnew.length
        omega
      · simp only [loopAcc, sumTo, List.append_assoc])
  simp only [diffLoop, Prog.bind_apply, setD, Option.some_bind, key, deltaSq]

theorem overwriteLoop_eq (N : Nat) (s : Mem) (hx : s.x.length = N) (hxn : s.xnew.length = N) :
    overwriteLoop N s
      = some ((), { s with x := s.xnew, log := s.log ++ loopAcc overwriteAcc N }) := by
  have key := forLoop_eq overwriteBody N s
    (fun k => { s with x := (List.range k).map (fun i => s.xnew.getD i 0) ++ s.x.drop k,
                       log := s.log ++ loopAcc overwriteAcc k })
    (by simp [loopAcc])
    (fun k hk => by
      beta_reduce
      refine (overwriteBody_eq k _ ?_ ?_).trans ?_
      · show k < ((List.range k).map (fun i => s.xnew.getD i 0) ++ s.x.drop k).length
        rw [fill_length _ _ _ (by omega)]
        omega
      · show k < s.xnew.length
        omega
      · simp only [set_fill (fun i => s.xnew.getD i 0) _ _ (show k < s.x.length by omega),
          loopAcc, List.append_assoc])
  unfold overwriteLoop
  rw [key]
  beta_reduce
  rw [map_getD_range _ _ hxn, List.drop_of_length_le (by omega), List.append_nil]

theorem residLoop_eq (N : Nat) (s : Mem) (hb : s.b.length = N) (hx : s.x.length = N) :
    residLoop N s
      = some ((), { s with r := residSq N s.b s.x,
                           log := s.log ++ loopAcc (residAcc N) N }) := by
  have key := forLoop_eq (residBody N) N { s with r := 0 }
    (fun k => { s with r := sumTo (fun i => residAt N s.b s.x i * residAt N s.b s.x i) k,
                       log := s.log ++ loopAcc (residAcc N) k })
    (by simp [loopAcc, sumTo])
    (fun k hk => by
      beta_reduce
      refine (residBody_eq N k hk _ ?_ ?_).trans ?_
      · exact hb
      · exact hx
      · simp only [loopAcc, sumTo, List.append_assoc])
  simp only [residLoop, Prog.bind_apply, setR, Option.some_bind, key, residSq]

theorem jacobi_length (N : Nat) (b x : List ℚ) : (jacobi N b x).length = N := by
  simp [jacobi]

theorem round_eq (N : Nat) (m it : Int) (s : Mem)
    (hb : s.b.length = N) (hx : s.x.length = N) (hxn : s.xnew.length = N) :
    round N m it s = some ((), roundResult N m it s) := by
  simp only [round, Prog.bind_apply, stencilLoop_eq N s hb hx hxn, Option.some_bind,
    diffLoop_eq N, overwriteLoop_eq N, residLoop_eq N, hb, hx, jacobi_length, report_eq,
    roundResult, roundAcc, List.append_assoc]

theorem iterState_b (N : Nat) (m : Int) (s : Mem) (k : Nat) : (iterState N m s k).b = s.b := by
  induction k with
  | zero => rfl
  | succ k ih => simpa [iterState, roundResult] using ih

theorem iterState_x_length (N : Nat) (m : Int) (s : Mem) (hx : s.x.length = N) (k : Nat) :
    (iterState N m s k).x.length = N := by
  cases k with
  | zero => exact hx
  | succ k => simp [iterState, roundResult, jacobi_length]

theorem iterState_xnew_length (N : Nat) (m : Int) (s : Mem) (hxn : s.xnew.length = N) (k : Nat) :
    (iterState N m s k).xnew.length = N := by
  cases k with
  | zero => exact hxn
  | succ k => simp [iterState, roundResult, jacobi_length]

theorem iterate_eq (N M : Nat) (s : Mem)
    (hb : s.b.length = N) (hx : s.x.length = N) (hxn : s.xnew.length = N) :
    iterate N M s = some ((), iterState N M s M) := by
  unfold iterate
  exact forLoop_eq (round N M) M s (iterState N M s) rfl (fun k _ =>
    round_eq N M k _ ((iterState_b N M s k).symm ▸ hb) (iterState_x_length N M s hx k)
      (iterState_xnew_length N M s hxn k))

theorem storeLoop_eq (a : Buf) (N : Nat) (s : Mem) (h : (s.buf a).length = N) :
    forLoop 0 (N : Int) (fun i => store a i 0) s
      = some ((), { s.setBuf a (List.replicate N 0) with
                    log := s.log ++ loopAcc (fun i => [Access.write a i]) N }) := by
  have key := forLoop_eq (fun i => store a i 0) N s
    (fun k => { s.setBuf a ((List.range k).map (fun _ => (0 : ℚ)) ++ (s.buf a).drop k) with
                log := s.log ++ loopAcc (fun i => [Access.write a i]) k })
    (by cases a <;> simp [loopAcc, Mem.setBuf, Mem.buf])
    (fun k hk => by
      beta_reduce
      have p0 : (0 : Int) ≤ k := by omega
      have hlen : k < (s.buf a).length := by omega
      have hf := set_fill (fun _ => (0 : ℚ)) (s.buf a) k hlen
      have hl := fill_length (fun _ => (0 : ℚ)) (s.buf a) k (by omega)
      cases a <;>
        simp only [Mem.buf, Mem.setBuf] at hf hl hlen ⊢ <;>
        simp only [store_apply, p0, Int.toNat_natCast, Mem.buf, Mem.setBuf, hl, hlen, if_true,
          hf, loopAcc, List.append_assoc])
  rw [key]
  beta_reduce
  rw [map_const_range, List.drop_of_length_le (by omega), List.append_nil]

theorem init_eq (N : Nat) (hN : 1 ≤ N) (s : Mem) (hb : s.b.length = N) (hx : s.x.length = N) :
    init N s = some ((), initResult N s) := by
  have p1 : (0 : Int) ≤ (N : Int) - 1 := by omega
  have t1 : ((N : Int) - 1).toNat = N - 1 := by omega
  have hlt : N - 1 < N := by omega
  simp only [init, Prog.bind_apply, storeLoop_eq Buf.b N s hb, Option.some_bind, store_apply,
    p1, t1, Mem.buf, Mem.setBuf, List.length_replicate, hlt, if_true]
  refine (storeLoop_eq Buf.x N _ ?_).trans ?_
  · exact hx
  · simp only [Mem.buf, Mem.setBuf, initResult, initAcc, List.append_assoc]

theorem exec_of_eq {α : Type} (p : Prog α) (s s' : Mem) (a : α) (h : p s = some (a, s')) :
    p.exec s = some s' := by
  simp [Prog.exec, h]

theorem jacobi_getElem? (N : Nat) (b x : List ℚ) (i : Nat) (h : i < N) :
    (jacobi N b x)[i]? = some (jacobiAt N b x i) := by
  simp [jacobi, h]

theorem initB_getElem? (N i : Nat) (v : ℚ) (hi : i < N) :
    ((List.replicate N (0 : ℚ)).set (N - 1) v)[i]? = some (if i = N - 1 then v else 0) := by
  rw [List.getElem?_set]
  by_cases h : N - 1 = i
  · simp [h, hi, eq_comm]
  · have h' : ¬ i = N - 1 := fun e => h e.symm
    simp [h, h', hi]

theorem initB_getD (N i : Nat) (v : ℚ) (hi : i < N) :
    ((List.replicate N (0 : ℚ)).set (N - 1) v).getD i 0 = if i = N - 1 then v else 0 := by
  rw [List.getD_eq_getElem?_getD, initB_getElem? N i v hi]; rfl

theorem xstar_length (N : Nat) : (xstar N).length = N := by
  simp only [xstar, List.length_map, List.length_range]

theorem xstar_getElem? (N i : Nat) (hi : i < N) : (xstar N)[i]? = some ((i : ℚ) + 1) := by
  simp only [xstar, List.getElem?_map, List.getElem?_range hi, Option.map_some']

theorem xstar_getD (N i : Nat) (hi : i < N) : (xstar N).getD i 0 = (i : ℚ) + 1 := by
  rw [List.getD_eq_getElem?_getD, xstar_getElem? N i hi]; rfl

theorem jacobi_xstar (N : Nat) :
    jacobi N ((List.replicate N (0 : ℚ)).set (N - 1) (((N : Int) + 1 : Int) : ℚ)) (xstar N)
      = xstar N := by
  apply List.ext_getElem?
  intro i
  by_cases hi : i < N
  swap
  · rw [List.getElem?_eq_none (by rw [jacobi_length]; omega),
      List.getElem?_eq_none (by rw [xstar_length]; omega)]
  · rw [jacobi_getElem? N _ _ i hi, xstar_getElem? N i hi]
    congr 1
    unfold jacobiAt
    rw [initB_getD N i _ hi]
    by_cases h0 : 0 < i <;> by_cases hl : i < N - 1
    · rw [if_pos h0, if_pos hl, xstar_getD N (i - 1) (by omega), xstar_getD N (i + 1) (by omega),
        if_neg (by omega)]
      have : ((i - 1 : Nat) : ℚ) = (i : ℚ) - 1 := by
        rw [Nat.cast_sub (by omega)]; simp
      rw [this]; push_cast; ring
    · rw [if_pos h0, if_neg hl, xstar_getD N (i - 1) (by omega), if_pos (by omega)]
      have e3 : ((i - 1 : Nat) : ℚ) = (i : ℚ) - 1 := by
        rw [Nat.cast_sub (by omega)]; simp
      have e4 : (N : ℚ) = (i : ℚ) + 1 := by
        have : N = i + 1 := by omega
        rw [this]; push_cast; ring
      rw [e3]; push_cast; rw [e4]; ring
    · rw [if_neg h0, if_pos hl, xstar_getD N (i + 1) (by omega), if_neg (by omega)]
      have : i = 0 := by omega
      subst this; push_cast; ring
    · rw [if_neg h0, if_neg hl, if_pos (by omega)]
      have : i = 0 := by omega
      subst this
      have : N = 1 := by omega
      subst this; norm_num

theorem sumTo_eq_sum (f : Nat → ℚ) (N : Nat) : sumTo f N = ∑ i in Finset.range N, f i := by
  induction N with
  | zero => simp [sumTo]
  | succ k ih => rw [sumTo, ih, Finset.sum_range_succ]

theorem sum_map_range (f : Nat → ℚ) (N : Nat) : ((List.range N).map f).sum = sumTo f N := by
  induction N with
  | zero => simp [sumTo]
  | succ k ih => rw [List.range_succ, List.map_append, List.sum_append, ih, sumTo]; simp

theorem zipWith_map_range (f : ℚ → ℚ → ℚ) (g : Nat → ℚ) (x : List ℚ) (N : Nat)
    (hx : x.length = N) :
    List.zipWith f ((List.range N).map g) x
      = (List.range N).map (fun j => f (g j) (x.getD j 0)) := by
  conv_lhs => rw [← map_getD_range x N hx]
  rw [List.zipWith_map]
  apply List.ext_getElem
  · simp
  · intro i h1 h2
    simp

theorem tri_row_dot (N i : Nat) (hi : i < N) (x : List ℚ) (hx : x.length = N) :
    dot ((List.range N).map (fun j =>
        if i = j then (2 : ℚ) else if i + 1 = j ∨ j + 1 = i then -1 else 0)) x
      = 2 * x.getD i 0 - (if 0 < i then x.getD (i - 1) 0 else 0)
          - (if i < N - 1 then x.getD (i + 1) 0 else 0) := by
  unfold dot
  rw [zipWith_map_range _ _ x N hx, sum_map_range, sumTo_eq_sum]
  have hterm : ∀ j : Nat,
      (if i = j then (2 : ℚ) else if i + 1 = j ∨ j + 1 = i then -1 else 0) * x.getD j 0
        = (if i = j then 2 * x.getD j 0 else 0)
          + ((if i + 1 = j then -(x.getD j 0) else 0)
            + (if i - 1 = j then (if 0 < i then -(x.getD j 0) else 0) else 0)) := by
    intro j
    by_cases h1 : i = j
    · subst h1
      simp
      intro h2 h3
      omega
    · by_cases h2 : i + 1 = j
      · have h3 : ¬ i - 1 = j := by omega
        simp [h1, h2, h3]
      · by_cases h3 : j + 1 = i
        · have h4 : i - 1 = j := by omega
          have h5 : 0 < i := by omega
          simp [h1, h2, h3, h4, h5]
        · by_cases h4 : i - 1 = j
          · have h5 : ¬ 0 < i := by omega
            simp [h1, h2, h3, h4, h5]
          · simp [h1, h2, h3, h4]
  simp only [hterm, Finset.sum_add_distrib, Finset.sum_ite_eq, Finset.mem_range]
  have hi1 : i - 1 < N := by omega
  rw [if_pos hi, if_pos hi1]
  by_cases h0 : 0 < i <;> by_cases hl : i < N - 1
  · rw [if_pos (by omega), if_pos h0, if_pos h0, if_pos hl]; ring
  · rw [if_neg (by omega), if_pos h0, if_pos h0, if_neg hl]; ring
  · rw [if_pos (by omega), if_neg h0, if_neg h0, if_pos hl]; ring
  · rw [if_neg (by omega), if_neg h0, if_neg h0, if_neg hl]; ring

theorem matVec_tri (N : Nat) (x : List ℚ) (hx : x.length = N) :
    matVec (triMatrix N) x
      = (List.range N).map (fun i => 2 * x.getD i 0 - (if 0 < i then x.getD (i - 1) 0 else 0)
          - (if i < N - 1 then x.getD (i + 1) 0 else 0)) := by
  unfold matVec triMatrix
  rw [List.map_map]
  apply List.map_congr_left
  intro i hi
  exact tri_row_dot N i (List.mem_range.mp hi) x hx

theorem residSq_eq_normSq (N : Nat) (b x : List ℚ) (hb : b.length = N) (hx : x.length = N) :
    residSq N b x = normSq (vecSub b (matVec (triMatrix N) x)) := by
  rw [matVec_tri N x hx]
  unfold vecSub normSq
  have hflip : List.zipWith (fun a c => a - c) b
      ((List.range N).map (fun i => 2 * x.getD i 0 - (if 0 < i then x.getD (i - 1) 0 else 0)
          - (if i < N - 1 then x.getD (i + 1) 0 else 0)))
      = (List.range N).map (fun i => b.getD i 0
          - (2 * x.getD i 0 - (if 0 < i then x.getD (i - 1) 0 else 0)
          - (if i < N - 1 then x.getD (i + 1) 0 else 0))) := by
    conv_lhs => rw [← map_getD_range b N hb]
    rw [List.zipWith_map]
    apply List.ext_getElem
    · simp
    · intro i h1 h2
      simp
  rw [hflip, List.map_map, sum_map_range]
  unfold residSq
  congr 1
  funext i
  simp only [Function.comp, residAt]
  ring

theorem lineRounds_append (o₁ o₂ : List Out) :
    lineRounds (o₁ ++ o₂) = lineRounds o₁ ++ lineRounds o₂ := by
  induction o₁ with
  | nil => rfl
  | cons a o ih => cases a <;> simp [lineRounds, ih]

theorem noticeCount_append (o₁ o₂ : List Out) :
    noticeCount (o₁ ++ o₂) = noticeCount o₁ + noticeCount o₂ := by
  induction o₁ with
  | nil => simp [noticeCount]
  | cons a o ih =>
    cases a
    all_goals simp [noticeCount, ih]
    omega

theorem noticeCount_reportOut (m it : Int) (d r : ℚ) :
    noticeCount (reportOut m it d r) = if it = 9 then 1 else 0 := by
  unfold reportOut
  by_cases h0 : it < 10 ∨ m - 10 < it <;> by_cases h1 : it = 9 <;>
    simp [h0, h1, noticeCount]

theorem lineRounds_reportOut (m it : Int) (d r : ℚ) :
    lineRounds (reportOut m it d r) = if it < 10 ∨ m - 10 < it then [it] else [] := by
  unfold reportOut
  by_cases h0 : it < 10 ∨ m - 10 < it <;> by_cases h1 : it = 9 <;>
    simp [h0, h1, lineRounds]

theorem iterState_noticeCount (N : Nat) (m : Int) (s : Mem) (k : Nat) :
    noticeCount (iterState N m s k).out = noticeCount s.out + (if 10 ≤ k then 1 else 0) := by
  induction k with
  | zero => simp [iterState]
  | succ k ih =>
    simp only [iterState, roundResult, noticeCount_append, noticeCount_reportOut, ih]
    by_cases h9 : k = 9
    · subst h9; simp
    · have h9' : ¬ (k : Int) = 9 := by omega
      rw [if_neg h9']
      by_cases h10 : 10 ≤ k
      · rw [if_pos h10, if_pos (by omega)]
      · rw [if_neg h10, if_neg (by omega)]

theorem iterState_lineRounds (N : Nat) (m : Int) (s : Mem) (k : Nat) :
    lineRounds (iterState N m s k).out
      = lineRounds s.out
          ++ ((List.range k).map (fun (it : Nat) => (it : Int))).filter
              (fun it => decide (it < 10 ∨ m - 10 < it)) := by
  induction k with
  | zero => simp [iterState]
  | succ k ih =>
    simp only [iterState, roundResult, lineRounds_append, lineRounds_reportOut, ih,
      List.range_succ, List.filter_append, List.map_append, List.append_assoc]
    by_cases h0 : (k : Int) < 10 ∨ m - 10 < (k : Int)
    · rw [if_pos h0, List.map_singleton, List.filter_cons, decide_eq_true h0]; rfl
    · rw [if_neg h0, List.map_singleton, List.filter_cons, decide_eq_false h0]; rfl

theorem reported_rounds_5000 :
    ((List.range 5000).map (fun (it : Nat) => (it : Int))).filter
        (fun it => decide (it < 10 ∨ (5000 : Int) - 10 < it))
      = [0, 1, 2, 3, 4, 5, 6, 7, 8, 9,
         4991, 4992, 4993, 4994, 4995, 4996, 4997, 4998, 4999] := by
  decide!

theorem writeCount_append (a : Buf) (l₁ l₂ : List Access) :
    writeCount a (l₁ ++ l₂) = writeCount a l₁ + writeCount a l₂ := by
  induction l₁ with
  | nil => simp [writeCount]
  | cons c l ih =>
    cases c
    all_goals simp [writeCount, ih]
    omega

theorem writeCount_loopAcc (a : Buf) (acc : Int → List Access) (c : Nat)
    (h : ∀ i, writeCount a (acc i) = c) (k : Nat) :
    writeCount a (loopAcc acc k) = k * c := by
  induction k with
  | zero => simp [loopAcc, writeCount]
  | succ k ih => rw [loopAcc, writeCount_append, ih, h, Nat.succ_mul]

theorem writeCount_x_stencilAcc (n i : Int) : writeCount Buf.x (stencilAcc n i) = 0 := by
  unfold stencilAcc
  split_ifs <;> simp [writeCount]

theorem writeCount_x_residAcc (n i : Int) : writeCount Buf.x (residAcc n i) = 0 := by
  unfold residAcc
  split_ifs <;> simp [writeCount]

theorem writeCount_x_roundAcc (N : Nat) : writeCount Buf.x (roundAcc N) = N := by
  unfold roundAcc
  rw [writeCount_append, writeCount_append, writeCount_append,
    writeCount_loopAcc Buf.x _ 0 (writeCount_x_stencilAcc N),
    writeCount_loopAcc Buf.x diffAcc 0 (fun i => by simp [diffAcc, writeCount]),
    writeCount_loopAcc Buf.x overwriteAcc 1 (fun i => by simp [overwriteAcc, writeCount]),
    writeCount_loopAcc Buf.x _ 0 (writeCount_x_residAcc N)]
  simp

theorem iterState_x (N : Nat) (m : Int) (s : Mem) (k : Nat) :
    (iterState N m s k).x = (fun x => jacobi N s.b x)^[k] s.x := by
  induction k with
  | zero => rfl
  | succ k ih =>
    rw [Function.iterate_succ_apply', ← ih]
    simp only [iterState, roundResult, iterState_b]

theorem iterState_log (N : Nat) (m : Int) (s : Mem) (k : Nat) :
    (iterState N m s k).log = s.log ++ loopAcc (fun _ => roundAcc N) k := by
  induction k with
  | zero => simp [iterState, loopAcc]
  | succ k ih => simp only [iterState, roundResult, ih, loopAcc, List.append_assoc]

theorem foldlM_round (N : Nat) (m : Int) (s : Mem)
    (hb : s.b.length = N) (hx : s.x.length = N) (hxn : s.xnew.length = N) (k : Nat) :
    (List.range k).foldlM (fun st (it : Nat) => (round N m it).exec st) s
      = some (iterState N m s k) := by
  induction k with
  | zero => rfl
  | succ k ih =>
    rw [List.range_succ, List.foldlM_append, ih]
    have := round_eq N m k _ ((iterState_b N m s k).symm ▸ hb) (iterState_x_length N m s hx k)
      (iterState_xnew_length N m s hxn k)
    simp [exec_of_eq _ _ _ _ this, iterState]

theorem mem_loopAcc (acc : Int → List Access) (a : Access) (k : Nat)
    (h : a ∈ loopAcc acc k) : ∃ j : Nat, j < k ∧ a ∈ acc (j : Int) := by
  induction k with
  | zero => simp [loopAcc] at h
  | succ k ih =>
    rw [loopAcc, List.mem_append] at h
    rcases h with h | h
    · obtain ⟨j, hj, hm⟩ := ih h
      exact ⟨j, by omega, hm⟩
    · exact ⟨k, by omega, h⟩

theorem stencilAcc_inRange (N j : Nat) (hj : j < N) :
    ∀ a ∈ stencilAcc N j, 0 ≤ a.index ∧ a.index < (N : Int) := by
  unfold stencilAcc
  split_ifs <;> simp [Access.index] <;> omega

theorem residAcc_inRange (N j : Nat) (hj : j < N) :
    ∀ a ∈ residAcc N j, 0 ≤ a.index ∧ a.index < (N : Int) := by
  unfold residAcc
  split_ifs <;> simp [Access.index] <;> omega

theorem neighbourReads_stencilAcc (N i : Nat) (hi : i < N) :
    neighbourReads i (stencilAcc N i)
      = (if i = 0 then [] else [(i : Int) - 1]) ++ (if i = N - 1 then [] else [(i : Int) + 1]) := by
  unfold stencilAcc neighbourReads
  by_cases h0 : i = 0 <;> by_cases h1 : i = N - 1
  · rw [if_neg (by omega), if_neg (by omega), if_pos h0, if_pos h1]; simp [xReads]
  · rw [if_neg (by omega), if_pos (by omega), if_pos h0, if_neg h1]; simp [xReads]
  · rw [if_pos (by omega), if_neg (by omega), if_neg h0, if_pos h1]; simp [xReads]
  · rw [if_pos (by omega), if_pos (by omega), if_neg h0, if_neg h1]; simp [xReads]

theorem neighbourReads_residAcc (N i : Nat) (hi : i < N) :
    neighbourReads i (residAcc N i)
      = (if i = 0 then [] else [(i : Int) - 1]) ++ (if i = N - 1 then [] else [(i : Int) + 1]) := by
  unfold residAcc neighbourReads
  by_cases h0 : i = 0 <;> by_cases h1 : i = N - 1
  · rw [if_neg (by omega), if_neg (by omega), if_pos h0, if_pos h1]; simp [xReads]
  · rw [if_neg (by omega), if_pos (by omega), if_pos h0, if_neg h1]; simp [xReads]
  · rw [if_pos (by omega), if_neg (by omega), if_neg h0, if_pos h1]; simp [xReads]
  · rw [if_pos (by omega), if_pos (by omega), if_neg h0, if_neg h1]; simp [xReads]

theorem writeCount_b_stencilAcc (n i : Int) : writeCount Buf.b (stencilAcc n i) = 0 := by
  unfold stencilAcc
  split_ifs <;> simp [writeCount]

theorem writeCount_b_residAcc (n i : Int) : writeCount Buf.b (residAcc n i) = 0 := by
  unfold residAcc
  split_ifs <;> simp [writeCount]

theorem writeCount_b_roundAcc (N : Nat) : writeCount Buf.b (roundAcc N) = 0 := by
  unfold roundAcc
  rw [writeCount_append, writeCount_append, writeCount_append,
    writeCount_loopAcc Buf.b _ 0 (writeCount_b_stencilAcc N),
    writeCount_loopAcc Buf.b diffAcc 0 (fun i => by simp [diffAcc, writeCount]),
    writeCount_loopAcc Buf.b overwriteAcc 0 (fun i => by simp [overwriteAcc, writeCount]),
    writeCount_loopAcc Buf.b _ 0 (writeCount_b_residAcc N)]
  simp

theorem jacobi_getD (N : Nat) (b x : List ℚ) (i : Nat) (h : i < N) :
    (jacobi N b x).getD i 0 = jacobiAt N b x i := by
  rw [List.getD_eq_getElem?_getD, jacobi_getElem? N b x i h]; rfl

theorem printBody_apply (i : Int) (s : Mem) (h0 : 0 ≤ i) (h : i.toNat < s.x.length) :
    (do print (.entry i (← load .x i)) : Prog Unit) s
      = some ((), { s with out := s.out ++ [Out.entry i (s.x.getD i.toNat 0)],
                           log := s.log ++ [Access.read Buf.x i] }) := by
  simp only [Prog.bind_apply, load_apply _ _ _ h0, Mem.buf, getElem?_of_lt _ _ h,
    Option.map_some', Option.some_bind, print]

theorem printBody_none (i : Int) (s : Mem) (h : i < 0 ∨ s.x.length ≤ i.toNat) :
    (do print (.entry i (← load .x i)) : Prog Unit) s = none := by
  rw [Prog.bind_apply]
  have : load Buf.x i s = none := by
    unfold load
    by_cases h0 : 0 ≤ i
    · have hlen : s.x.length ≤ i.toNat := by
        rcases h with h | h
        · omega
        · exact h
      rw [if_pos h0]
      simp only [Mem.buf, List.getElem?_eq_none hlen]
    · rw [if_neg h0]
  rw [this]
  rfl

theorem forCount_none (body : Int → Prog Unit) :
    ∀ (cnt : Nat) (lo : Int) (st : Nat → Mem) (j : Nat), j < cnt →
      (∀ k, k < j → body (lo + k) (st k) = some ((), st (k + 1))) →
      body (lo + j) (st j) = none →
      forCount body cnt lo (st 0) = none := by
  intro cnt
  induction cnt with
  | zero => intro lo st j hj; omega
  | succ c ih =>
    intro lo st j hj hstep hfail
    show (body lo >>= fun _ => forCount body c (lo + 1)) (st 0) = _
    rw [Prog.bind_apply]
    cases j with
    | zero =>
      simp only [Nat.cast_zero, add_zero] at hfail
      rw [hfail]; rfl
    | succ j =>
      have h0 := hstep 0 (Nat.succ_pos j)
      simp only [Nat.cast_zero, add_zero] at h0
      rw [h0]
      exact ih (lo + 1) (fun k => st (k + 1)) j (by omega)
        (fun k hk => by
          have := hstep (k + 1) (by omega)
          rw [show lo + ((k + 1 : Nat) : Int) = lo + 1 + (k : Int) by push_cast; ring] at this
          exact this)
        (by
          rw [show lo + ((j + 1 : Nat) : Int) = lo + 1 + (j : Int) by push_cast; ring] at hfail
          exact hfail)

theorem printLoop_eq (lo : Int) (cnt : Nat) (s : Mem) (h0 : 0 ≤ lo)
    (h : lo.toNat + cnt ≤ s.x.length) :
    forCount (fun i => (do print (.entry i (← load .x i)) : Prog Unit)) cnt lo s
      = some ((), { s with
          out := s.out ++ (List.range cnt).map
            (fun (j : Nat) => Out.entry (lo + (j : Int)) (s.x.getD (lo.toNat + j) 0)),
          log := s.log ++ (List.range cnt).map
            (fun (j : Nat) => Access.read Buf.x (lo + (j : Int))) }) := by
  have key := forCount_eq (fun i => (do print (.entry i (← load .x i)) : Prog Unit)) cnt lo
    (fun k => { s with
          out := s.out ++ (List.range k).map
            (fun (j : Nat) => Out.entry (lo + (j : Int)) (s.x.getD (lo.toNat + j) 0)),
          log := s.log ++ (List.range k).map
            (fun (j : Nat) => Access.read Buf.x (lo + (j : Int))) })
    (fun k hk => by
      beta_reduce
      have p0 : 0 ≤ lo + (k : Int) := by omega
      have t0 : (lo + (k : Int)).toNat = lo.toNat + k := by omega
      refine (printBody_apply (lo + (k : Int)) _ p0 ?_).trans ?_
      · show (lo + (k : Int)).toNat < s.x.length
        omega
      · simp only [t0, List.range_succ, List.map_append, List.map_singleton, List.append_assoc])
  have h00 : (fun k => ({ s with
          out := s.out ++ (List.range k).map
            (fun (j : Nat) => Out.entry (lo + (j : Int)) (s.x.getD (lo.toNat + j) 0)),
          log := s.log ++ (List.range k).map
            (fun (j : Nat) => Access.read Buf.x (lo + (j : Int))) } : Mem)) 0 = s := by
    simp
  rw [h00] at key
  exact key

theorem printFinal_eq (N : Nat) (hN : 11 ≤ N) (s : Mem) (hx : s.x.length = N) :
    printFinal N s
      = some ((), { s with out := s.out ++ finalOut N s.x, log := s.log ++ finalAcc N }) := by
  have c1 : ((10 : Int) - 0).toNat = 10 := by decide
  have c2 : ((N : Int) - ((N : Int) - 11)).toNat = 11 := by omega
  have p2 : (0 : Int) ≤ (N : Int) - 11 := by omega
  have t2 : ((N : Int) - 11).toNat = N - 11 := by omega
  simp only [printFinal, forLoop, c1, c2, Prog.bind_apply, print, Option.some_bind]
  rw [printLoop_eq 0 10 _ (le_refl 0) (by show (0 : Int).toNat + 10 ≤ s.x.length; simp; omega)]
  simp only [Option.some_bind]
  rw [printLoop_eq ((N : Int) - 11) 11 _ p2
    (by show ((N : Int) - 11).toNat + 11 ≤ s.x.length; omega)]
  simp only [finalOut, finalAcc, t2, Int.toNat_zero, zero_add, List.append_assoc,
    List.cons_append, List.nil_append, List.singleton_append]

theorem printLoop_none (lo : Int) (cnt : Nat) (s : Mem) (hc : 0 < cnt)
    (h : lo < 0 ∨ s.x.length < lo.toNat + cnt) :
    forCount (fun i => (do print (.entry i (← load .x i)) : Prog Unit)) cnt lo s = none := by
  by_cases hlo : lo < 0
  · exact forCount_none _ cnt lo (fun _ => s) 0 hc (fun k hk => by omega)
      (printBody_none _ s (Or.inl (by omega)))
  · have hlen : s.x.length < lo.toNat + cnt := by
      rcases h with h | h
      · omega
      · exact h
    have hfail := forCount_none (fun i => (do print (.entry i (← load .x i)) : Prog Unit)) cnt lo
      (fun k => { s with
          out := s.out ++ (List.range k).map
            (fun (j : Nat) => Out.entry (lo + (j : Int)) (s.x.getD (lo.toNat + j) 0)),
          log := s.log ++ (List.range k).map
            (fun (j : Nat) => Access.read Buf.x (lo + (j : Int))) })
      (s.x.length - lo.toNat) (by omega)
      (fun k hk => by
        beta_reduce
        have p0 : 0 ≤ lo + (k : Int) := by omega
        have t0 : (lo + (k : Int)).toNat = lo.toNat + k := by omega
        refine (printBody_apply (lo + (k : Int)) _ p0 ?_).trans ?_
        · show (lo + (k : Int)).toNat < s.x.length
          omega
        · simp only [t0, List.range_succ, List.map_append, List.map_singleton,
            List.append_assoc])
      (printBody_none _ _ (Or.inr (by
        show s.x.length ≤ (lo + ((s.x.length - lo.toNat : Nat) : Int)).toNat
        omega)))
    have h00 : (fun k => ({ s with
          out := s.out ++ (List.range k).map
            (fun (j : Nat) => Out.entry (lo + (j : Int)) (s.x.getD (lo.toNat + j) 0)),
          log := s.log ++ (List.range k).map
            (fun (j : Nat) => Access.read Buf.x (lo + (j : Int))) } : Mem)) 0 = s := by
      simp
    rw [h00] at hfail
    exact hfail

theorem printFinal_none (N : Nat) (hN : N ≤ 10) (s : Mem) (hx : s.x.length = N) :
    printFinal N s = none := by
  have c1 : ((10 : Int) - 0).toNat = 10 := by decide
  have c2 : ((N : Int) - ((N : Int) - 11)).toNat = 11 := by omega
  simp only [printFinal, forLoop, c1, c2, Prog.bind_apply, print, Option.some_bind]
  by_cases h10 : N = 10
  · rw [printLoop_eq 0 10 _ (le_refl 0) (by show (0 : Int).toNat + 10 ≤ s.x.length; simp; omega)]
    simp only [Option.some_bind]
    exact printLoop_none _ 11 _ (by decide) (Or.inl (by omega))
  · rw [printLoop_none 0 10 _ (by decide)
      (Or.inr (by show s.x.length < (0 : Int).toNat + 10; simp; omega))]
    rfl

theorem banner_eq (n m : Int) (s : Mem) :
    banner n m s = some ((), { s with out := s.out ++ bannerOut n m }) := by
  simp only [banner, Prog.bind_apply, print, Option.some_bind, bannerOut, List.append_assoc,
    List.singleton_append, List.cons_append, List.nil_append]

theorem footer_eq (s : Mem) :
    footer s = some ((), { s with out := s.out ++ footerOut }) := by
  simp only [footer, Prog.bind_apply, print, Option.some_bind, footerOut, List.append_assoc,
    List.singleton_append, List.cons_append, List.nil_append]

theorem propagation (N : Nat) (k : Nat) :
    ∀ i : Nat, i + k < N →
      ((fun x => jacobi N (initB N) x)^[k] (List.replicate N 0)).getD i 0 = 0 := by
  induction k with
  | zero =>
    intro i hi
    rw [Function.iterate_zero, id_eq, List.getD_eq_getElem?_getD,
      List.getElem?_eq_getElem (by simp; omega)]
    simp
  | succ k ih =>
    intro i hi
    rw [Function.iterate_succ_apply', jacobi_getD N _ _ i (by omega)]
    unfold jacobiAt
    have hb : (initB N).getD i 0 = 0 := by
      unfold initB
      rw [initB_getD N i _ (by omega), if_neg (by omega)]
    rw [hb, ih (i + 1) (by omega)]
    by_cases h0 : 0 < i
    · rw [if_pos h0, ih (i - 1) (by omega)]
      simp
    · rw [if_neg h0]
      simp

theorem iterState_init_x (N : Nat) (m : Int) (s : Mem) (k : Nat) :
    (iterState N m (initResult N s) k).x
      = (fun x => jacobi N (initB N) x)^[k] (List.replicate N 0) :=
  iterState_x N m (initResult N s) k

theorem iterState_init_zero (N : Nat) (m : Int) (s : Mem) (k i : Nat) (h : i + k < N) :
    (iterState N m (initResult N s) k).x[i]? = some 0 := by
  have hlen : (iterState N m (initResult N s) k).x.length = N :=
    iterState_x_length N m _ (by simp [initResult]) k
  rw [getElem?_of_lt _ i (by omega), iterState_init_x, propagation N k i h]

theorem mainProg_eq (N M : Nat) (hN : 11 ≤ N) (s : Mem)
    (hb : s.b.length = N) (hx : s.x.length = N) (hxn : s.xnew.length = N) :
    mainProg N M s = some ((), mainResult N M s) := by
  have e1 := banner_eq N M s
  have e2 := init_eq N (by omega) { s with out := s.out ++ bannerOut N M } hb hx
  have hb0 : (initResult N { s with out := s.out ++ bannerOut N M }).b.length = N := by
    simp [initResult]
  have hx0 : (initResult N { s with out := s.out ++ bannerOut N M }).x.length = N := by
    simp [initResult]
  have e3 := iterate_eq N M (initResult N { s with out := s.out ++ bannerOut N M }) hb0 hx0 hxn
  have e4 := printFinal_eq N hN
    (iterState N M (initResult N { s with out := s.out ++ bannerOut N M }) M)
    (iterState_x_length N M _ hx0 M)
  simp only [mainProg, Prog.bind_apply, e1, Option.some_bind, e2, e3, e4, footer_eq,
    mainResult, List.append_assoc]

theorem finalOut_leading_zero (N : Nat) (x : List ℚ) (h : ∀ i : Nat, i < 10 → x.getD i 0 = 0) :
    finalOut N x
      = [Out.text "", Out.text "  Part of final solution estimate:", Out.text "",
         Out.entry 0 0, Out.entry 1 0, Out.entry 2 0, Out.entry 3 0, Out.entry 4 0,
         Out.entry 5 0, Out.entry 6 0, Out.entry 7 0, Out.entry 8 0, Out.entry 9 0,
         Out.text "..."]
        ++ (List.range 11).map
            (fun (j : Nat) => Out.entry ((N : Int) - 11 + (j : Int)) (x.getD (N - 11 + j) 0)) := by
  have hr : List.range 10 = [0, 1, 2, 3, 4, 5, 6, 7, 8, 9] := by decide
  unfold finalOut
  rw [hr]
  simp only [List.map_cons, List.map_nil, h 0 (by decide), h 1 (by decide), h 2 (by decide),
    h 3 (by decide), h 4 (by decide), h 5 (by decide), h 6 (by decide), h 7 (by decide),
    h 8 (by decide), h 9 (by decide), List.cons_append, List.nil_append, List.append_assoc,
    Nat.cast_ofNat, Nat.cast_zero, Nat.cast_one]

theorem mainProg_leading_zero (N M : Nat) (hN : 11 ≤ N) (hM : M + 10 ≤ N) (t : Mem)
    (tb : t.b.length = N) (tx : t.x.length = N) (txn : t.xnew.length = N) :
    ∃ sp, (mainProg N M).exec t = some sp ∧
      (∀ i : Nat, i + M < N → sp.x[i]? = some 0) ∧
      ∃ pre post, sp.out = pre
        ++ [Out.text "", Out.text "  Part of final solution estimate:", Out.text "",
            Out.entry 0 0, Out.entry 1 0, Out.entry 2 0, Out.entry 3 0, Out.entry 4 0,
            Out.entry 5 0, Out.entry 6 0, Out.entry 7 0, Out.entry 8 0, Out.entry 9 0,
            Out.text "..."]
        ++ post := by
  refine ⟨_, exec_of_eq _ _ _ _ (mainProg_eq N M hN t tb tx txn), ?_, ?_⟩
  · intro i hi
    exact iterState_init_zero N M _ M i hi
  · have hz := finalOut_leading_zero N
      (iterState N M (initResult N { t with out := t.out ++ bannerOut N M }) M).x
      (fun i hi => by
        rw [iterState_init_x]
        exact propagation N M i (by omega))
    refine ⟨(iterState N M (initResult N { t with out := t.out ++ bannerOut N M }) M).out,
      (List.range 11).map (fun (j : Nat) => Out.entry ((N : Int) - 11 + (j : Int))
        ((iterState N M (initResult N { t with out := t.out ++ bannerOut N M }) M).x.getD
          (N - 11 + j) 0)) ++ footerOut, ?_⟩
    show (iterState N M (initResult N { t with out := t.out ++ bannerOut N M }) M).out
        ++ finalOut N (iterState N M (initResult N { t with out := t.out ++ bannerOut N M }) M).x
        ++ footerOut = _
    rw [hz]
    simp only [List.append_assoc]

theorem forEach_range (body : Int → Prog Unit) :
    ∀ (cnt : Nat) (lo : Int),
      forEach body ((List.range cnt).map (fun (k : Nat) => lo + (k : Int)))
        = forCount body cnt lo := by
  intro cnt
  induction cnt with
  | zero => intro lo; rfl
  | succ c ih =>
    intro lo
    have hmap : (List.range (c + 1)).map (fun (k : Nat) => lo + (k : Int))
        = lo :: (List.range c).map (fun (k : Nat) => lo + 1 + (k : Int)) := by
      rw [List.range_succ_eq_map, List.map_cons, List.map_map]
      congr 1
      · simp
      · apply List.map_congr_left
        intro k _
        simp only [Function.comp, Nat.succ_eq_add_one]
        push_cast
        ring
    rw [hmap]
    show (body lo >>= fun _ => forEach body _) = (body lo >>= fun _ => forCount body c (lo + 1))
    rw [ih (lo + 1)]

theorem forEach_fullChunk (body : Int → Prog Unit) (N : Nat) :
    forEach body (fullChunk N) = forLoop 0 (N : Int) body := by
  have h := forEach_range body N 0
  simp only [zero_add] at h
  unfold fullChunk forLoop
  rw [h, sub_zero, Int.toNat_natCast]

theorem diffTeam_one_thread (N : Nat) (s : Mem) :
    diffTeam [fullChunk N] oneThread s = diffLoop N s := by
  simp only [diffTeam, diffLoop, runThreads, diffThread, forEach_fullChunk, Prog.bind_apply,
    Prog.pure_apply, getD, setD, oneThread, teamFold, List.foldl_cons, List.foldl_nil,
    List.getD_cons_zero, Option.some_bind]
  cases h : forLoop 0 (N : Int) diffBody { s with d := 0 } with
  | none => rfl
  | some r =>
    obtain ⟨u, s'⟩ := r
    cases s'
    simp only [Option.some_bind, zero_add]
    rfl

theorem residTeam_one_thread (N : Nat) (s : Mem) :
    residTeam N [fullChunk N] oneThread s = residLoop N s := by
  simp only [residTeam, residLoop, runThreads, residThread, forEach_fullChunk, Prog.bind_apply,
    Prog.pure_apply, getR, setR, oneThread, teamFold, List.foldl_cons, List.foldl_nil,
    List.getD_cons_zero, Option.some_bind]
  cases h : forLoop 0 (N : Int) (residBody N) { s with r := 0 } with
  | none => rfl
  | some r =>
    obtain ⟨u, s'⟩ := r
    cases s'
    simp only [Option.some_bind, zero_add]
    rfl

theorem roundTeam_one_thread (N : Nat) (m it : Int) (s : Mem) :
    roundTeam N m it [fullChunk N] oneThread oneThread s = round N m it s := by
  have hd : diffTeam [fullChunk N] oneThread = diffLoop N :=
    funext (diffTeam_one_thread N)
  have hr : residTeam N [fullChunk N] oneThread = residLoop N :=
    funext (residTeam_one_thread N)
  unfold roundTeam round
  rw [hd, hr]

theorem teamFold_combines (parts : List ℚ) (K : Nat) (d0 : ℚ) :
    teamFold parts ((List.range K).map TeamStep.combine) d0
      = d0 + sumTo (fun t => parts.getD t 0) K := by
  induction K with
  | zero => simp [teamFold, sumTo]
  | succ k ih =>
    unfold teamFold at ih ⊢
    rw [List.range_succ, List.map_append, List.foldl_append, ih]
    simp only [List.map_singleton, List.foldl_cons, List.foldl_nil, sumTo]
    ring

theorem teamFold_resets (parts : List ℚ) (K : Nat) (hK : 0 < K) (d0 : ℚ) :
    teamFold parts ((List.range K).map TeamStep.reset) d0 = 0 := by
  cases K with
  | zero => omega
  | succ k =>
    unfold teamFold
    rw [List.range_succ, List.map_append, List.foldl_append]
    rfl

theorem teamFold_resets_first (parts : List ℚ) (K : Nat) (hK : 0 < K) (d0 : ℚ) :
    teamFold parts
        ((List.range K).map TeamStep.reset ++ (List.range K).map TeamStep.combine) d0
      = sumTo (fun t => parts.getD t 0) K := by
  have h1 := teamFold_resets parts K hK d0
  have h2 := teamFold_combines parts K 0
  unfold teamFold at h1 h2 ⊢
  rw [List.foldl_append, h1, h2, zero_add]

/-- With a team of one thread, `r` after a round is the squared Euclidean norm of
`b − A·x`, with `A` the materialised tridiagonal matrix and `x` the iterate
after the round's overwrite, which is the stencil output of this round. -/
theorem residual_one_thread_is_norm_of_b_minus_Ax (N : Nat) (m it : Int) (s : Mem)
    (hb : s.b.length = N) (hx : s.x.length = N) (hxn : s.xnew.length = N) :
    ∃ s', (roundTeam N m it [fullChunk N] oneThread oneThread).exec s = some s' ∧
      (round N m it).exec s = some s' ∧
      (∀ i : Nat, i < N →
        s'.x[i]? = some ((s.b.getD i 0 + (if 0 < i then s.x.getD (i - 1) 0 else 0)
                          + (if i < N - 1 then s.x.getD (i + 1) 0 else 0)) / 2)) ∧
      s'.x = s'.xnew ∧
      s'.r = normSq (vecSub s'.b (matVec (triMatrix N) s'.x)) := by
  have hrun := exec_of_eq _ _ _ _ (round_eq N m it s hb hx hxn)
  refine ⟨_, ?_, hrun, ?_, rfl, ?_⟩
  · simpa only [Prog.exec, roundTeam_one_thread] using hrun
  · intro i hi
    exact jacobi_getElem? N s.b s.x i hi
  · exact residSq_eq_normSq N s.b (jacobi N s.b s.x) hb (jacobi_length N _ _)

/-- With a team of one thread, from any state (whatever `d` holds) the
difference segment leaves `d = Σ_{i<N} (x[i] − xnew[i])²` and changes neither
buffer; in a round `d` is that sum with `x` the round-start iterate and `xnew`
the stencil output of the same round. -/
theorem delta_one_thread_is_sum_of_squares (N : Nat) (m it : Int) (s : Mem)
    (hb : s.b.length = N) (hx : s.x.length = N) (hxn : s.xnew.length = N) :
    (∃ s1, (diffTeam [fullChunk N] oneThread).exec s = some s1 ∧
      (diffLoop N).exec s = some s1 ∧ s1.x = s.x ∧ s1.xnew = s.xnew ∧
      s1.d = ∑ i in Finset.range N, (s.x.getD i 0 - s.xnew.getD i 0) ^ 2) ∧
    ∃ s', (round N m it).exec s = some s' ∧
      (∀ i : Nat, i < N →
        s'.xnew[i]? = some ((s.b.getD i 0 + (if 0 < i then s.x.getD (i - 1) 0 else 0)
                             + (if i < N - 1 then s.x.getD (i + 1) 0 else 0)) / 2)) ∧
      s'.d = ∑ i in Finset.range N, (s.x.getD i 0 - s'.xnew.getD i 0) ^ 2 := by
  have hrun := exec_of_eq _ _ _ _ (diffLoop_eq N s hx hxn)
  refine ⟨⟨_, ?_, hrun, rfl, rfl, ?_⟩,
    _, exec_of_eq _ _ _ _ (round_eq N m it s hb hx hxn), ?_, ?_⟩
  · simpa only [Prog.exec, diffTeam_one_thread] using hrun
  · exact sumTo_eq_sum _ N
  · intro i hi
    exact jacobi_getElem? N s.b s.x i hi
  · exact sumTo_eq_sum _ N

/-! ## The claims -/

/-- C1. Stencil update (Jacobi, not Gauss-Seidel): on buffers of length `N` the
stencil loop of a round terminates without an out-of-range access and leaves
`xnew[i] = (b[i] + (x[i-1] if i > 0 else 0) + (x[i+1] if i < N-1 else 0)) / 2`
for every `i < N`, where `x` and `b` are the buffers at the start of the loop
(so no entry depends on a value written earlier in the sweep); `x` and `b` are
unchanged. -/
theorem C1_stencil_loop_is_jacobi_update (N : Nat) (s : Mem)
    (hb : s.b.length = N) (hx : s.x.length = N) (hxn : s.xnew.length = N) :
    ∃ s', (stencilLoop N).exec s = some s' ∧ s'.x = s.x ∧ s'.b = s.b ∧ s'.xnew.length = N ∧
      ∀ i : Nat, i < N →
        s'.xnew[i]? = some ((s.b.getD i 0 + (if 0 < i then s.x.getD (i - 1) 0 else 0)
                              + (if i < N - 1 then s.x.getD (i + 1) 0 else 0)) / 2) := by
  refine ⟨_, exec_of_eq _ _ _ _ (stencilLoop_eq N s hb hx hxn), rfl, rfl, jacobi_length N _ _, ?_⟩
  intro i hi
  exact jacobi_getElem? N s.b s.x i hi

/-- C1 at `N = 3`. -/
theorem C1_stencil_loop_is_jacobi_update_witness :
    (sample3.b.length = 3 ∧ sample3.x.length = 3 ∧ sample3.xnew.length = 3) ∧
    ∃ s', (stencilLoop (3 : Nat)).exec sample3 = some s' ∧ s'.x = sample3.x ∧ s'.b = sample3.b ∧
      s'.xnew.length = 3 ∧
      ∀ i : Nat, i < 3 →
        s'.xnew[i]? = some ((sample3.b.getD i 0
                              + (if 0 < i then sample3.x.getD (i - 1) 0 else 0)
                              + (if i < 3 - 1 then sample3.x.getD (i + 1) 0 else 0)) / 2) :=
  ⟨⟨rfl, rfl, rfl⟩, C1_stencil_loop_is_jacobi_update 3 sample3 rfl rfl rfl⟩

/-- C2. Fixed point: for every `N ≥ 1`, after the set-up block has built the
right-hand side (`b[i] = 0` for `i < N-1`, `b[N-1] = N+1`), the stencil loop run
with `x = (1, 2, …, N)` leaves `xnew = (1, 2, …, N)` exactly, for every entry
(boundaries and `N = 1` included). -/
theorem C2_exact_solution_is_fixed_point (N : Nat) (hN : 1 ≤ N) (s : Mem)
    (hb : s.b.length = N) (hx : s.x.length = N) (hxn : s.xnew.length = N) :
    ∃ s1, (init N).exec s = some s1 ∧
      (∀ i : Nat, i < N → s1.b[i]? = some (if i = N - 1 then (N : ℚ) + 1 else 0)) ∧
      ∃ s2, (stencilLoop N).exec { s1 with x := xstar N } = some s2 ∧
        s2.xnew = xstar N ∧
        ∀ i : Nat, i < N → s2.xnew[i]? = some ((i : ℚ) + 1) := by
  refine ⟨_, exec_of_eq _ _ _ _ (init_eq N hN s hb hx), ?_, ?_⟩
  · intro i hi
    have := initB_getElem? N i (((N : Int) + 1 : Int) : ℚ) hi
    simpa [initResult] using this
  · have hlen : (initResult N s).b.length = N := by simp [initResult]
    have hxs : (xstar N).length = N := xstar_length N
    refine ⟨_, exec_of_eq _ _ _ _ (stencilLoop_eq N { initResult N s with x := xstar N }
      hlen hxs hxn), ?_, ?_⟩
    · exact jacobi_xstar N
    · intro i hi
      show (jacobi N (initResult N s).b (xstar N))[i]? = _
      have := jacobi_xstar N
      simp only [initResult] at this ⊢
      rw [this]
      exact xstar_getElem? N i hi

/-- C2 at `N = 3`. -/
theorem C2_exact_solution_is_fixed_point_witness :
    (1 ≤ 3 ∧ sample3.b.length = 3 ∧ sample3.x.length = 3 ∧ sample3.xnew.length = 3) ∧
    ∃ s1, (init (3 : Nat)).exec sample3 = some s1 ∧
      (∀ i : Nat, i < 3 → s1.b[i]? = some (if i = 3 - 1 then ((3 : Nat) : ℚ) + 1 else 0)) ∧
      ∃ s2, (stencilLoop (3 : Nat)).exec { s1 with x := xstar 3 } = some s2 ∧
        s2.xnew = xstar 3 ∧
        ∀ i : Nat, i < 3 → s2.xnew[i]? = some ((i : ℚ) + 1) :=
  ⟨⟨by decide, rfl, rfl, rfl⟩,
    C2_exact_solution_is_fixed_point 3 (by decide) sample3 rfl rfl rfl⟩

/-- C4, as the code has it: with `M = 5000` the reporting block prints a line
in every round `0..9` and in every round `4991..4999`, prints no line in any
round `10..4990` (round `4990` included), and prints the notice in round `9`
only; over the whole run the lines printed are those of rounds
`0,…,9,4991,…,4999`, in this order, and the notice is printed once. -/
theorem C4_reporting_policy_5000 (N : Nat) (s : Mem)
    (hb : s.b.length = N) (hx : s.x.length = N) (hxn : s.xnew.length = N) :
    (∀ (it : Nat) (st : Mem), it < 5000 →
      (report 5000 it).exec st
        = some { st with out := st.out
                          ++ (if it ≤ 9 ∨ 4991 ≤ it then [Out.line it st.d st.r] else [])
                          ++ (if it = 9 then [Out.notice] else []) }) ∧
    ∃ sf, (iterate N 5000).exec s = some sf ∧
      lineRounds sf.out
        = lineRounds s.out ++ [0, 1, 2, 3, 4, 5, 6, 7, 8, 9,
            4991, 4992, 4993, 4994, 4995, 4996, 4997, 4998, 4999] ∧
      noticeCount sf.out = noticeCount s.out + 1 := by
  have hrun := iterate_eq N 5000 s hb hx hxn
  have hl := iterState_lineRounds N ((5000 : Nat) : Int) s 5000
  have hn := iterState_noticeCount N ((5000 : Nat) : Int) s 5000
  rw [Nat.cast_ofNat] at hrun hl hn
  refine ⟨fun it st hit => ?_, _, exec_of_eq _ _ _ _ hrun, ?_, ?_⟩
  · rw [exec_of_eq _ _ _ _ (report_eq 5000 it st)]
    unfold reportOut
    by_cases h0 : it ≤ 9 ∨ 4991 ≤ it
    · have h0' : (it : Int) < 10 ∨ (5000 : Int) - 10 < it := by omega
      by_cases h9 : it = 9
      · have h9' : (it : Int) = 9 := by omega
        simp only [if_pos h0, if_pos h0', if_pos h9, if_pos h9', List.append_assoc]
      · have h9' : ¬ (it : Int) = 9 := by omega
        simp only [if_pos h0, if_pos h0', if_neg h9, if_neg h9', List.append_assoc]
    · have h0' : ¬ ((it : Int) < 10 ∨ (5000 : Int) - 10 < it) := by omega
      have h9 : ¬ it = 9 := by omega
      have h9' : ¬ (it : Int) = 9 := by omega
      simp only [if_neg h0, if_neg h0', if_neg h9, if_neg h9', List.append_assoc]
  · rw [hl, reported_rounds_5000]
  · rw [hn]; rfl

/-- C4 at `N = 3`. -/
theorem C4_reporting_policy_5000_witness :
    (sample3.b.length = 3 ∧ sample3.x.length = 3 ∧ sample3.xnew.length = 3) ∧
    ((∀ (it : Nat) (st : Mem), it < 5000 →
      (report 5000 it).exec st
        = some { st with out := st.out
                          ++ (if it ≤ 9 ∨ 4991 ≤ it then [Out.line it st.d st.r] else [])
                          ++ (if it = 9 then [Out.notice] else []) }) ∧
    ∃ sf, (iterate (3 : Nat) 5000).exec sample3 = some sf ∧
      lineRounds sf.out
        = lineRounds sample3.out ++ [0, 1, 2, 3, 4, 5, 6, 7, 8, 9,
            4991, 4992, 4993, 4994, 4995, 4996, 4997, 4998, 4999] ∧
      noticeCount sf.out = noticeCount sample3.out + 1) :=
  ⟨⟨rfl, rfl, rfl⟩, C4_reporting_policy_5000 3 sample3 rfl rfl rfl⟩

/-- C4 as stated fails in round `4990`: with `m = 5000` the reporting block of
round `4990` prints nothing (`4990 < 10` and `5000 - 10 < 4990` are both
false), so the trailing block of report lines starts at round `4991`. -/
theorem C4_counterexample :
    ((report 5000 4990).exec sample3).map (fun st => st.out) = some [] ∧
    ((report 5000 4991).exec sample3).map (fun st => lineRounds st.out) = some [4991] := by
  decide!

/-- C5. Reporter contract: for every budget `m` and round `it` the reporting
block appends to the output exactly one line carrying `it`, `d`, `r` (printed
as `it`, `sqrt(d)`, `sqrt(r)`) when `it < 10` or `it > m - 10` and no line
otherwise, followed by the notice exactly when `it = 9`, and changes nothing
else; over a whole run of `M` rounds the notice is printed once when
`M ≥ 10` and never when `M < 10`. -/
theorem C5_reporter_contract (N M : Nat) (s : Mem)
    (hb : s.b.length = N) (hx : s.x.length = N) (hxn : s.xnew.length = N) :
    (∀ (m it : Int) (st : Mem),
      (report m it).exec st
        = some { st with out := st.out
                          ++ (if it < 10 ∨ it > m - 10 then [Out.line it st.d st.r] else [])
                          ++ (if it = 9 then [Out.notice] else []) }) ∧
    ∃ sf, (iterate N M).exec s = some sf ∧
      noticeCount sf.out = noticeCount s.out + (if 10 ≤ M then 1 else 0) := by
  refine ⟨fun m it st => ?_, _, exec_of_eq _ _ _ _ (iterate_eq N M s hb hx hxn),
    iterState_noticeCount N M s M⟩
  rw [exec_of_eq _ _ _ _ (report_eq m it st)]
  simp only [reportOut, gt_iff_lt, List.append_assoc]

/-- C5 at `N = 3`, `M = 12`. -/
theorem C5_reporter_contract_witness :
    (sample3.b.length = 3 ∧ sample3.x.length = 3 ∧ sample3.xnew.length = 3) ∧
    ((∀ (m it : Int) (st : Mem),
      (report m it).exec st
        = some { st with out := st.out
                          ++ (if it < 10 ∨ it > m - 10 then [Out.line it st.d st.r] else [])
                          ++ (if it = 9 then [Out.notice] else []) }) ∧
    ∃ sf, (iterate (3 : Nat) (12 : Nat)).exec sample3 = some sf ∧
      noticeCount sf.out = noticeCount sample3.out + (if 10 ≤ 12 then 1 else 0)) :=
  ⟨⟨rfl, rfl, rfl⟩, C5_reporter_contract 3 12 sample3 rfl rfl rfl⟩

set_option maxRecDepth 100000 in
/-- C6. Residual against the explicit operator: the claim is that the `r` left by
the residual loop is the squared Euclidean norm of `b − A·x` for the iterate
`x` after the overwrite.  The code does not ensure it for a team of several
threads.  At `N = 2`, round `0`, two threads (thread `t` owning pass `i = t`):
`x` after the overwrite is `[0, 3/2]` and `‖b − A·x‖² = 9/4`; when both threads
execute `r = 0.0` before either combines, `r = 9/4`; when thread `1` executes
`r = 0.0` after thread `0` has combined its partial sum `9/4`, that sum is
discarded and the round leaves `r = 0`. -/
theorem C6_residual_lost_by_late_reset :
    admissible 2 resetsFirst = true ∧ admissible 2 lateReset1 = true ∧
    ((init 2 >>= fun _ => roundTeam 2 50 0 chunks2 resetsFirst resetsFirst).exec start2).map
        (fun s => (s.b, s.x, s.r, normSq (vecSub s.b (matVec (triMatrix 2) s.x))))
      = some ([0, 3], [0, 3 / 2], 9 / 4, 9 / 4) ∧
    ((init 2 >>= fun _ => roundTeam 2 50 0 chunks2 resetsFirst lateReset1).exec start2).map
        (fun s => (s.b, s.x, s.r, normSq (vecSub s.b (matVec (triMatrix 2) s.x))))
      = some ([0, 3], [0, 3 / 2], 0, 9 / 4) := by
  decide!

set_option maxRecDepth 100000 in
/-- C7. Delta reduction: the claim is that the `d` left by the difference loop is
`Σ_{i<N} (x[i] − xnew[i])²` for the round-start `x` and the stencil output
`xnew`.  The code does not ensure it for a team of several threads.  At
`N = 2`, round `0`, two threads (thread `t` owning pass `i = t`): the
round-start `x` is `[0, 0]`, `xnew = [0, 3/2]` and the sum is `9/4`; when both
threads execute `d = 0.0` before either combines, `d = 9/4`; when thread `0`
executes `d = 0.0` after thread `1` has combined its partial sum `9/4`, that
sum is discarded and the round leaves `d = 0`. -/
theorem C7_delta_lost_by_late_reset :
    admissible 2 resetsFirst = true ∧ admissible 2 lateReset0 = true ∧
    ((init 2).exec start2).map (fun s => s.x) = some [0, 0] ∧
    ((init 2 >>= fun _ => roundTeam 2 50 0 chunks2 resetsFirst resetsFirst).exec start2).map
        (fun s => (s.xnew, s.d, deltaSq 2 [0, 0] s.xnew))
      = some ([0, 3 / 2], 9 / 4, 9 / 4) ∧
    ((init 2 >>= fun _ => roundTeam 2 50 0 chunks2 lateReset0 resetsFirst).exec start2).map
        (fun s => (s.xnew, s.d, deltaSq 2 [0, 0] s.xnew))
      = some ([0, 3 / 2], 0, 9 / 4) := by
  decide!

/-- C8. Boundary handling: on buffers of length `N` the stencil loop and the
residual loop terminate without taking the out-of-range branch of any access,
and every index they access lies in `[0, N)`; in pass `i` of either loop the
neighbours of `x` that are read are `x[i-1]` unless `i = 0` and `x[i+1]` unless
`i = N-1`: only `x[1]` at `i = 0`, only `x[N-2]` at `i = N-1`, none when
`N = 1`. -/
theorem C8_boundary_handling (N : Nat) (s : Mem)
    (hb : s.b.length = N) (hx : s.x.length = N) (hxn : s.xnew.length = N) :
    (∃ s1 acc, (stencilLoop N).exec s = some s1 ∧ s1.log = s.log ++ acc ∧
      ∀ a ∈ acc, 0 ≤ a.index ∧ a.index < (N : Int)) ∧
    (∃ s2 acc, (residLoop N).exec s = some s2 ∧ s2.log = s.log ++ acc ∧
      ∀ a ∈ acc, 0 ≤ a.index ∧ a.index < (N : Int)) ∧
    (∀ i : Nat, i < N → ∃ s' acc, (stencilBody N i).exec s = some s' ∧
      s'.log = s.log ++ acc ∧
      neighbourReads i acc
        = (if i = 0 then [] else [(i : Int) - 1])
            ++ (if i = N - 1 then [] else [(i : Int) + 1])) ∧
    (∀ i : Nat, i < N → ∃ s' acc, (residBody N i).exec s = some s' ∧
      s'.log = s.log ++ acc ∧
      neighbourReads i acc
        = (if i = 0 then [] else [(i : Int) - 1])
            ++ (if i = N - 1 then [] else [(i : Int) + 1])) := by
  refine ⟨⟨_, _, exec_of_eq _ _ _ _ (stencilLoop_eq N s hb hx hxn), rfl, ?_⟩,
    ⟨_, _, exec_of_eq _ _ _ _ (residLoop_eq N s hb hx), rfl, ?_⟩, ?_, ?_⟩
  · intro a ha
    obtain ⟨j, hj, hm⟩ := mem_loopAcc _ a N ha
    exact stencilAcc_inRange N j hj a hm
  · intro a ha
    obtain ⟨j, hj, hm⟩ := mem_loopAcc _ a N ha
    exact residAcc_inRange N j hj a hm
  · intro i hi
    exact ⟨_, _, exec_of_eq _ _ _ _ (stencilBody_eq N i hi s hb hx hxn), rfl,
      neighbourReads_stencilAcc N i hi⟩
  · intro i hi
    exact ⟨_, _, exec_of_eq _ _ _ _ (residBody_eq N i hi s hb hx), rfl,
      neighbourReads_residAcc N i hi⟩

/-- C8 at `N = 3`. -/
theorem C8_boundary_handling_witness :
    (sample3.b.length = 3 ∧ sample3.x.length = 3 ∧ sample3.xnew.length = 3) ∧
    ((∃ s1 acc, (stencilLoop (3 : Nat)).exec sample3 = some s1 ∧ s1.log = sample3.log ++ acc ∧
      ∀ a ∈ acc, 0 ≤ a.index ∧ a.index < ((3 : Nat) : Int)) ∧
    (∃ s2 acc, (residLoop (3 : Nat)).exec sample3 = some s2 ∧ s2.log = sample3.log ++ acc ∧
      ∀ a ∈ acc, 0 ≤ a.index ∧ a.index < ((3 : Nat) : Int)) ∧
    (∀ i : Nat, i < 3 → ∃ s' acc, (stencilBody (3 : Nat) i).exec sample3 = some s' ∧
      s'.log = sample3.log ++ acc ∧
      neighbourReads i acc
        = (if i = 0 then [] else [(i : Int) - 1])
            ++ (if i = 3 - 1 then [] else [(i : Int) + 1])) ∧
    (∀ i : Nat, i < 3 → ∃ s' acc, (residBody (3 : Nat) i).exec sample3 = some s' ∧
      s'.log = sample3.log ++ acc ∧
      neighbourReads i acc
        = (if i = 0 then [] else [(i : Int) - 1])
            ++ (if i = 3 - 1 then [] else [(i : Int) + 1]))) :=
  ⟨⟨rfl, rfl, rfl⟩, C8_boundary_handling 3 sample3 rfl rfl rfl⟩

/-- C9. Exactly `M` rounds: for every `N ≥ 1` and every `M ≥ 0`, after the set-up
block the iteration loop terminates; its effect is that of the round body run
for `it = 0, 1, …, M-1` in this order, none skipped and none after `M-1`
(its access log is `M` copies of one round's accesses, with `M·N` writes to
`x`); and the final `x` is the `M`-fold composition of the Jacobi map
`x ↦ stencil(b, x)` applied to the zero vector. -/
theorem C9_exactly_M_rounds (N M : Nat) (hN : 1 ≤ N) (s : Mem)
    (hb : s.b.length = N) (hx : s.x.length = N) (hxn : s.xnew.length = N) :
    ∃ s0 sf, (init N).exec s = some s0 ∧ (iterate N M).exec s0 = some sf ∧
      (iterate N M).exec s0
        = (List.range M).foldlM (fun st (it : Nat) => (round N M it).exec st) s0 ∧
      (∃ acc, sf.log = s0.log ++ acc ∧ acc = loopAcc (fun _ => roundAcc N) M ∧
        writeCount Buf.x acc = M * N) ∧
      sf.x = (fun x => jacobi N s0.b x)^[M] (List.replicate N 0) := by
  have hb0 : (initResult N s).b.length = N := by simp [initResult]
  have hx0 : (initResult N s).x.length = N := by simp [initResult]
  have hrun := exec_of_eq _ _ _ _ (iterate_eq N M (initResult N s) hb0 hx0 hxn)
  refine ⟨_, _, exec_of_eq _ _ _ _ (init_eq N hN s hb hx), hrun, ?_, ?_, ?_⟩
  · rw [hrun, foldlM_round N M (initResult N s) hb0 hx0 hxn M]
  · refine ⟨_, iterState_log N M (initResult N s) M, rfl, ?_⟩
    exact writeCount_loopAcc Buf.x _ N (fun _ => writeCount_x_roundAcc N) M
  · exact iterState_x N M (initResult N s) M

/-- C9 at `N = 3`, `M = 4`. -/
theorem C9_exactly_M_rounds_witness :
    (1 ≤ 3 ∧ sample3.b.length = 3 ∧ sample3.x.length = 3 ∧ sample3.xnew.length = 3) ∧
    ∃ s0 sf, (init (3 : Nat)).exec sample3 = some s0 ∧
      (iterate (3 : Nat) (4 : Nat)).exec s0 = some sf ∧
      (iterate (3 : Nat) (4 : Nat)).exec s0
        = (List.range 4).foldlM
            (fun st (it : Nat) => (round (3 : Nat) (4 : Nat) it).exec st) s0 ∧
      (∃ acc, sf.log = s0.log ++ acc ∧ acc = loopAcc (fun _ => roundAcc 3) 4 ∧
        writeCount Buf.x acc = 4 * 3) ∧
      sf.x = (fun x => jacobi 3 s0.b x)^[4] (List.replicate 3 0) :=
  ⟨⟨by decide, rfl, rfl, rfl⟩, C9_exactly_M_rounds 3 4 (by decide) sample3 rfl rfl rfl⟩

/-- C10. Initialisation: for every `N ≥ 1`, whatever the buffers of length `N`
hold beforehand, the set-up block terminates without an out-of-range access
and leaves `b` of length `N` with `b[i] = 0` for `i < N-1` and `b[N-1] = N+1`,
and `x` of length `N` with `x[i] = 0` for every `i < N`. -/
theorem C10_initialisation (N : Nat) (hN : 1 ≤ N) (s : Mem)
    (hb : s.b.length = N) (hx : s.x.length = N) :
    ∃ s', (init N).exec s = some s' ∧
      s'.b.length = N ∧ (∀ i : Nat, i < N - 1 → s'.b[i]? = some 0) ∧
      s'.b[N - 1]? = some ((N : ℚ) + 1) ∧
      s'.x.length = N ∧ (∀ i : Nat, i < N → s'.x[i]? = some 0) := by
  refine ⟨_, exec_of_eq _ _ _ _ (init_eq N hN s hb hx), ?_, ?_, ?_, ?_, ?_⟩
  · simp [initResult]
  · intro i hi
    have := initB_getElem? N i (((N : Int) + 1 : Int) : ℚ) (by omega)
    rw [if_neg (by omega)] at this
    exact this
  · have := initB_getElem? N (N - 1) (((N : Int) + 1 : Int) : ℚ) (by omega)
    simpa [initResult] using this
  · simp [initResult]
  · intro i hi
    simp [initResult, hi]

/-- C10 at `N = 3`, from buffers holding arbitrary values. -/
theorem C10_initialisation_witness :
    (1 ≤ 3 ∧ sample3.b.length = 3 ∧ sample3.x.length = 3) ∧
    ∃ s', (init (3 : Nat)).exec sample3 = some s' ∧
      s'.b.length = 3 ∧ (∀ i : Nat, i < 3 - 1 → s'.b[i]? = some 0) ∧
      s'.b[3 - 1]? = some (((3 : Nat) : ℚ) + 1) ∧
      s'.x.length = 3 ∧ (∀ i : Nat, i < 3 → s'.x[i]? = some 0) :=
  ⟨⟨by decide, rfl, rfl⟩, C10_initialisation 3 (by decide) sample3 rfl rfl⟩

/-- C11. Right-hand side is immutable: a round, run from any state with buffers
of length `N`, leaves `b` as it was and makes no write access to `b` (its
writes go to `xnew` and `x`, and to the scalars `d` and `r`); hence after the
set-up block the state after any number `k ≤ M` of rounds, and in particular
after all `M`, still holds the `b` built by the initialisation. -/
theorem C11_rhs_immutable (N M : Nat) (hN : 1 ≤ N) (s : Mem)
    (hb : s.b.length = N) (hx : s.x.length = N) (hxn : s.xnew.length = N) :
    (∀ (it : Int) (st : Mem), st.b.length = N → st.x.length = N → st.xnew.length = N →
      ∃ st' acc, (round N M it).exec st = some st' ∧ st'.b = st.b ∧
        st'.log = st.log ++ acc ∧ writeCount Buf.b acc = 0) ∧
    ∃ s0, (init N).exec s = some s0 ∧
      (∀ k : Nat, k ≤ M → ∃ sk,
        (List.range k).foldlM (fun st (it : Nat) => (round N M it).exec st) s0 = some sk ∧
        sk.b = s0.b) ∧
      ∃ sf, (iterate N M).exec s0 = some sf ∧ sf.b = s0.b ∧
        ∀ i : Nat, i < N → sf.b[i]? = some (if i = N - 1 then (N : ℚ) + 1 else 0) := by
  have hb0 : (initResult N s).b.length = N := by simp [initResult]
  have hx0 : (initResult N s).x.length = N := by simp [initResult]
  refine ⟨fun it st h1 h2 h3 => ⟨_, _, exec_of_eq _ _ _ _ (round_eq N M it st h1 h2 h3), rfl,
    rfl, writeCount_b_roundAcc N⟩, _, exec_of_eq _ _ _ _ (init_eq N hN s hb hx), ?_, ?_⟩
  · intro k _
    exact ⟨_, foldlM_round N M (initResult N s) hb0 hx0 hxn k, iterState_b N M _ k⟩
  · refine ⟨_, exec_of_eq _ _ _ _ (iterate_eq N M (initResult N s) hb0 hx0 hxn),
      iterState_b N M _ M, ?_⟩
    intro i hi
    rw [iterState_b]
    have := initB_getElem? N i (((N : Int) + 1 : Int) : ℚ) hi
    simpa [initResult] using this

/-- C11 at `N = 3`, `M = 4`. -/
theorem C11_rhs_immutable_witness :
    (1 ≤ 3 ∧ sample3.b.length = 3 ∧ sample3.x.length = 3 ∧ sample3.xnew.length = 3) ∧
    ((∀ (it : Int) (st : Mem), st.b.length = 3 → st.x.length = 3 → st.xnew.length = 3 →
      ∃ st' acc, (round (3 : Nat) (4 : Nat) it).exec st = some st' ∧ st'.b = st.b ∧
        st'.log = st.log ++ acc ∧ writeCount Buf.b acc = 0) ∧
    ∃ s0, (init (3 : Nat)).exec sample3 = some s0 ∧
      (∀ k : Nat, k ≤ 4 → ∃ sk,
        (List.range k).foldlM
          (fun st (it : Nat) => (round (3 : Nat) (4 : Nat) it).exec st) s0 = some sk ∧
        sk.b = s0.b) ∧
      ∃ sf, (iterate (3 : Nat) (4 : Nat)).exec s0 = some sf ∧ sf.b = s0.b ∧
        ∀ i : Nat, i < 3 → sf.b[i]? = some (if i = 3 - 1 then ((3 : Nat) : ℚ) + 1 else 0)) :=
  ⟨⟨by decide, rfl, rfl, rfl⟩, C11_rhs_immutable 3 4 (by decide) sample3 rfl rfl rfl⟩

/-- C14. Finite propagation speed: for every `N ≥ 1` and `k ≥ 0`, after the set-up
block and `k` rounds, `x[i] = 0` for every `i` with `i + k < N`; in particular
the program with the built-in `N = 50000`, `M = 5000` terminates with `x[i] = 0`
for every `i < 45000`, and the ten leading entries it prints under
`Part of final solution estimate:` are all `0`. -/
theorem C14_finite_propagation (N M k : Nat) (hN : 1 ≤ N) (s : Mem)
    (hb : s.b.length = N) (hx : s.x.length = N) (hxn : s.xnew.length = N) :
    (∃ s0 sk, (init N).exec s = some s0 ∧
      (List.range k).foldlM (fun st (it : Nat) => (round N M it).exec st) s0 = some sk ∧
      ∀ i : Nat, i + k < N → sk.x[i]? = some 0) ∧
    (∀ t : Mem, t.b.length = 50000 → t.x.length = 50000 → t.xnew.length = 50000 →
      ∃ sp, (mainProg 50000 5000).exec t = some sp ∧
        (∀ i : Nat, i < 45000 → sp.x[i]? = some 0) ∧
        ∃ pre post, sp.out = pre
          ++ [Out.text "", Out.text "  Part of final solution estimate:", Out.text "",
              Out.entry 0 0, Out.entry 1 0, Out.entry 2 0, Out.entry 3 0, Out.entry 4 0,
              Out.entry 5 0, Out.entry 6 0, Out.entry 7 0, Out.entry 8 0, Out.entry 9 0,
              Out.text "..."]
          ++ post) := by
  have hb0 : (initResult N s).b.length = N := by simp [initResult]
  have hx0 : (initResult N s).x.length = N := by simp [initResult]
  refine ⟨⟨_, _, exec_of_eq _ _ _ _ (init_eq N hN s hb hx),
    foldlM_round N M (initResult N s) hb0 hx0 hxn k,
    fun i hi => iterState_init_zero N M s k i hi⟩, ?_⟩
  intro t tb tx txn
  obtain ⟨sp, h1, h2, h3⟩ := mainProg_leading_zero 50000 5000 (by decide) (by decide) t tb tx txn
  rw [Nat.cast_ofNat, Nat.cast_ofNat] at h1
  exact ⟨sp, h1, fun i hi => h2 i (by omega), h3⟩

/-- C14 at `N = 3`, `M = 4`, `k = 1`. -/
theorem C14_finite_propagation_witness :
    (1 ≤ 3 ∧ sample3.b.length = 3 ∧ sample3.x.length = 3 ∧ sample3.xnew.length = 3) ∧
    ((∃ s0 sk, (init (3 : Nat)).exec sample3 = some s0 ∧
      (List.range 1).foldlM
        (fun st (it : Nat) => (round (3 : Nat) (4 : Nat) it).exec st) s0 = some sk ∧
      ∀ i : Nat, i + 1 < 3 → sk.x[i]? = some 0) ∧
    (∀ t : Mem, t.b.length = 50000 → t.x.length = 50000 → t.xnew.length = 50000 →
      ∃ sp, (mainProg 50000 5000).exec t = some sp ∧
        (∀ i : Nat, i < 45000 → sp.x[i]? = some 0) ∧
        ∃ pre post, sp.out = pre
          ++ [Out.text "", Out.text "  Part of final solution estimate:", Out.text "",
              Out.entry 0 0, Out.entry 1 0, Out.entry 2 0, Out.entry 3 0, Out.entry 4 0,
              Out.entry 5 0, Out.entry 6 0, Out.entry 7 0, Out.entry 8 0, Out.entry 9 0,
              Out.text "..."]
          ++ post)) :=
  ⟨⟨by decide, rfl, rfl, rfl⟩, C14_finite_propagation 3 4 1 (by decide) sample3 rfl rfl rfl⟩

/-- C17. Final print window bounds: on an `x` of length `N` the two closing loops
read `x` at the indices `0..9` and then `N-11..N-1` (eleven trailing entries);
with every access checked, the print completes (all reads in `[0,N)`) if and
only if `N ≥ 11`, and for `N ≤ 10` it takes the out-of-range branch. -/
theorem C17_final_print_window (N : Nat) (s : Mem) (hx : s.x.length = N) :
    ((∃ s', (printFinal N).exec s = some s') ↔ 11 ≤ N) ∧
    (11 ≤ N → ∃ s' acc, (printFinal N).exec s = some s' ∧ s'.log = s.log ++ acc ∧
      acc = (List.range 10).map (fun (i : Nat) => Access.read Buf.x (i : Int))
            ++ (List.range 11).map
                (fun (j : Nat) => Access.read Buf.x ((N : Int) - 11 + (j : Int)))) ∧
    (N ≤ 10 → (printFinal N).exec s = none) := by
  have hnone : N ≤ 10 → (printFinal N).exec s = none := fun h => by
    simp [Prog.exec, printFinal_none N h s hx]
  refine ⟨⟨fun ⟨s', hs'⟩ => ?_, fun h => ⟨_, exec_of_eq _ _ _ _ (printFinal_eq N h s hx)⟩⟩,
    fun h => ⟨_, _, exec_of_eq _ _ _ _ (printFinal_eq N h s hx), rfl, rfl⟩, hnone⟩
  by_contra hlt
  rw [hnone (by omega)] at hs'
  exact Option.noConfusion hs'

/-- C17 at `N = 10`, where the second loop starts at index `-1`. -/
theorem C17_final_print_window_witness :
    start10.x.length = 10 ∧
    (((∃ s', (printFinal (10 : Nat)).exec start10 = some s') ↔ 11 ≤ 10) ∧
    (11 ≤ 10 → ∃ s' acc, (printFinal (10 : Nat)).exec start10 = some s' ∧
      s'.log = start10.log ++ acc ∧
      acc = (List.range 10).map (fun (i : Nat) => Access.read Buf.x (i : Int))
            ++ (List.range 11).map
                (fun (j : Nat) => Access.read Buf.x (((10 : Nat) : Int) - 11 + (j : Int)))) ∧
    (10 ≤ 10 → (printFinal (10 : Nat)).exec start10 = none)) :=
  ⟨rfl, C17_final_print_window 10 start10 rfl⟩

end Jacobi

/-! ## Matrix product: facts and claim -/

namespace Mxm

theorem matCount_eq (body : Int → Mats → Option Mats) :
    ∀ (cnt : Nat) (lo : Int) (st : Nat → Mats),
      (∀ k, k < cnt → body (lo + k) (st k) = some (st (k + 1))) →
      forCount body cnt lo (st 0) = some (st cnt) := by
  intro cnt
  induction cnt with
  | zero => intro lo st _; rfl
  | succ c ih =>
    intro lo st h
    have h0 := h 0 (Nat.succ_pos c)
    simp only [Nat.cast_zero, add_zero] at h0
    have hrest := ih (lo + 1) (fun k => st (k + 1)) (fun k hk => by
      have := h (k + 1) (Nat.succ_lt_succ hk)
      rw [show lo + ((k + 1 : Nat) : Int) = lo + 1 + (k : Int) by push_cast; ring] at this
      exact this)
    show (body lo (st 0)).bind (forCount body c (lo + 1)) = _
    rw [h0]
    exact hrest

theorem matLoop_eq (body : Int → Mats → Option Mats) (N : Nat) (s : Mats) (st : Nat → Mats)
    (h0 : st 0 = s)
    (h : ∀ k, k < N → body (k : Int) (st k) = some (st (k + 1))) :
    forLoop 0 (N : Int) body s = some (st N) := by
  unfold forLoop
  rw [sub_zero, Int.toNat_natCast, ← h0]
  exact matCount_eq body N 0 st (fun k hk => by rw [zero_add]; exact h k hk)

theorem get2_of (m : List (List ℚ)) (i j : Nat) (row : List ℚ) (v : ℚ)
    (hrow : m[i]? = some row) (hv : row[j]? = some v) :
    get2 m (i : Int) (j : Int) = some v := by
  unfold get2
  rw [if_pos ⟨Int.natCast_nonneg i, Int.natCast_nonneg j⟩, Int.toNat_natCast,
    Int.toNat_natCast, hrow]
  exact hv

theorem set2_of (m : List (List ℚ)) (i j : Nat) (row : List ℚ) (v : ℚ)
    (hrow : m[i]? = some row) (hj : j < row.length) :
    set2 m (i : Int) (j : Int) v = some (m.set i (row.set j v)) := by
  unfold set2
  rw [if_pos ⟨Int.natCast_nonneg i, Int.natCast_nonneg j⟩, Int.toNat_natCast,
    Int.toNat_natCast, hrow]
  simp only [hj, if_true]

theorem row_getElem? (m : List (List ℚ)) (i : Nat) (h : i < m.length) :
    m[i]? = some (m.getD i []) := by
  rw [List.getD_eq_getElem?_getD, List.getElem?_eq_getElem h]; rfl

theorem entry_get (n : Nat) (m : List (List ℚ)) (hm : Square n m) (i j : Nat)
    (hi : i < n) (hj : j < n) :
    get2 m (i : Int) (j : Int) = some (entry m i j) :=
  get2_of m i j _ _ (row_getElem? m i (by rw [hm.1]; exact hi))
    (Jacobi.getElem?_of_lt _ j (by rw [hm.2 i hi]; exact hj))

theorem set_getD_self (m : List (List ℚ)) (i : Nat) (h : i < m.length) :
    m.set i (m.getD i []) = m := by
  apply List.ext_getElem?
  intro k
  by_cases hk : i = k
  · subst hk
    rw [List.getElem?_set_self h, row_getElem? m i h]
  · rw [List.getElem?_set_ne hk]

theorem getD_set_self (m : List (List ℚ)) (i : Nat) (R : List ℚ) (h : i < m.length) :
    (m.set i R).getD i [] = R := by
  rw [List.getD_eq_getElem?_getD, List.getElem?_set_self h]; rfl

theorem set_after_rows (v : List ℚ) :
    ∀ (P X : List (List ℚ)), P.length < X.length →
      (P ++ X.drop P.length).set P.length v = (P ++ [v]) ++ X.drop (P.length + 1) := by
  intro P
  induction P with
  | nil =>
    intro X h
    cases X with
    | nil => simp at h
    | cons c X => simp
  | cons p P ih =>
    intro X h
    cases X with
    | nil => simp at h
    | cons c X =>
      have := ih X (by simpa using h)
      simpa using this

theorem set_fill_rows (f : Nat → List ℚ) (X : List (List ℚ)) (k : Nat) (h : k < X.length) :
    ((List.range k).map f ++ X.drop k).set k (f k)
      = (List.range (k + 1)).map f ++ X.drop (k + 1) := by
  have := set_after_rows (f k) ((List.range k).map f) X (by simpa using h)
  simp only [List.length_map, List.length_range] at this
  rw [this, List.range_succ, List.map_append, List.map_singleton]

theorem fill_rows_getD (f : Nat → List ℚ) (X : List (List ℚ)) (k : Nat) :
    ((List.range k).map f ++ X.drop k).getD k [] = X.getD k [] := by
  rw [List.getD_eq_getElem?_getD, List.getD_eq_getElem?_getD,
    List.getElem?_append_right (by simp)]
  simp

theorem fill_rows_length (f : Nat → List ℚ) (X : List (List ℚ)) (k : Nat)
    (h : k ≤ X.length) :
    ((List.range k).map f ++ X.drop k).length = X.length := by
  simp only [List.length_append, List.length_map, List.length_range, List.length_drop]
  omega

theorem inner_eq (n i j : Nat) (s : Mats) (ha : Square n s.a) (hb : Square n s.b)
    (hi : i < n) (hj : j < n) (hic : i < s.c.length) (hjc : j < (s.c.getD i []).length) :
    forLoop 0 (n : Int) (loop3Inner i j)
        { s with c := s.c.set i ((s.c.getD i []).set j 0) }
      = some { s with c := s.c.set i ((s.c.getD i []).set j (prodAt n s.a s.b i j)) } := by
  refine matLoop_eq (loop3Inner i j) n _
    (fun k => { s with c := s.c.set i ((s.c.getD i []).set j
      (Jacobi.sumTo (fun k => entry s.a i k * entry s.b k j) k)) }) rfl (fun k hk => ?_)
  beta_reduce
  have hrow : (s.c.set i ((s.c.getD i []).set j
      (Jacobi.sumTo (fun k => entry s.a i k * entry s.b k j) k)))[i]?
      = some ((s.c.getD i []).set j
          (Jacobi.sumTo (fun k => entry s.a i k * entry s.b k j) k)) :=
    List.getElem?_set_self hic
  have hget := get2_of _ i j _ _ hrow (List.getElem?_set_self hjc)
  have hset := set2_of _ i j _
    (Jacobi.sumTo (fun k => entry s.a i k * entry s.b k j) k + entry s.a i k * entry s.b k j)
    hrow (by rw [List.length_set]; exact hjc)
  simp only [loop3Inner, hget, entry_get n s.a ha i k hi hk, entry_get n s.b hb k j hk hj, hset,
    Option.bind_eq_bind, Option.some_bind, Option.pure_def, List.set_set, Jacobi.sumTo]

theorem entry_eq (n i j : Nat) (s : Mats) (ha : Square n s.a) (hb : Square n s.b)
    (hi : i < n) (hj : j < n) (hic : i < s.c.length) (hjc : j < (s.c.getD i []).length) :
    loop3Entry (n : Int) (i : Int) (j : Int) s
      = some { s with c := s.c.set i ((s.c.getD i []).set j (prodAt n s.a s.b i j)) } := by
  have hset := set2_of s.c i j _ 0 (row_getElem? s.c i hic) hjc
  simp only [loop3Entry, hset, Option.bind_eq_bind, Option.some_bind]
  exact inner_eq n i j s ha hb hi hj hic hjc

theorem row_eq (n i : Nat) (s : Mats) (ha : Square n s.a) (hb : Square n s.b)
    (hi : i < n) (hic : i < s.c.length) (hrow : (s.c.getD i []).length = n) :
    forLoop 0 (n : Int) (loop3Entry (n : Int) (i : Int)) s
      = some { s with c := s.c.set i ((List.range n).map (prodAt n s.a s.b i)) } := by
  have key := matLoop_eq (loop3Entry (n : Int) (i : Int)) n s
    (fun j => { s with c := (s.c.set i
      ((List.range j).map (prodAt n s.a s.b i) ++ (s.c.getD i []).drop j)) })
    (by
      show ({ s with c := s.c.set i ([] ++ (s.c.getD i []).drop 0) } : Mats) = s
      rw [List.nil_append, List.drop_zero, set_getD_self s.c i hic])
    (fun j hj => by
      beta_reduce
      have hlen : ((List.range j).map (prodAt n s.a s.b i) ++ (s.c.getD i []).drop j).length
          = n := (Jacobi.fill_length _ _ j (by omega)).trans hrow
      have e := entry_eq n i j
        { s with c := (s.c.set i
            ((List.range j).map (prodAt n s.a s.b i) ++ (s.c.getD i []).drop j)) }
        ha hb hi hj (by simpa using hic)
        (by
          show j < ((s.c.set i _).getD i []).length
          rw [getD_set_self _ _ _ hic, hlen]; exact hj)
      rw [e]
      simp only [getD_set_self _ _ _ hic, List.set_set,
        Jacobi.set_fill (prodAt n s.a s.b i) (s.c.getD i []) j (by omega)])
  rw [key]
  simp only [List.drop_of_length_le (le_of_eq hrow), List.append_nil]

theorem loop3_eq (n : Nat) (s : Mats) (ha : Square n s.a) (hb : Square n s.b)
    (hc : Square n s.c) :
    loop3 (n : Int) s = some { s with c := matMul n s.a s.b } := by
  have key := matLoop_eq (fun i => forLoop 0 (n : Int) (loop3Entry (n : Int) i)) n s
    (fun i => { s with c := ((List.range i).map
        (fun i => (List.range n).map (prodAt n s.a s.b i)) ++ s.c.drop i) })
    (by simp)
    (fun i hi => by
      beta_reduce
      have hlen : ((List.range i).map (fun i => (List.range n).map (prodAt n s.a s.b i))
          ++ s.c.drop i).length = n :=
        (fill_rows_length _ _ i (by rw [hc.1]; omega)).trans hc.1
      have e := row_eq n i
        { s with c := ((List.range i).map
            (fun i => (List.range n).map (prodAt n s.a s.b i)) ++ s.c.drop i) }
        ha hb hi (by rw [hlen]; exact hi)
        (by
          show (((List.range i).map (fun i => (List.range n).map (prodAt n s.a s.b i))
            ++ s.c.drop i).getD i []).length = n
          rw [fill_rows_getD]; exact hc.2 i hi)
      rw [e]
      simp only [set_fill_rows (fun i => (List.range n).map (prodAt n s.a s.b i)) s.c i
        (by rw [hc.1]; exact hi)])
  unfold loop3
  rw [key]
  simp only [List.drop_of_length_le (le_of_eq hc.1), List.append_nil, matMul]

theorem copyBody_eq (n i j : Nat) (s : Mats) (ha : Square n s.a)
    (hi : i < n) (hj : j < n) (hib : i < s.b.length) (hjb : j < (s.b.getD i []).length) :
    loop2Body (i : Int) (j : Int) s
      = some { s with b := s.b.set i ((s.b.getD i []).set j (entry s.a i j)) } := by
  have hset := set2_of s.b i j _ (entry s.a i j) (row_getElem? s.b i hib) hjb
  simp only [loop2Body, entry_get n s.a ha i j hi hj, hset, Option.bind_eq_bind,
    Option.some_bind, Option.pure_def]

theorem copyRow_eq (n i : Nat) (s : Mats) (ha : Square n s.a)
    (hi : i < n) (hib : i < s.b.length) (hrow : (s.b.getD i []).length = n) :
    forLoop 0 (n : Int) (loop2Body (i : Int)) s
      = some { s with b := s.b.set i ((List.range n).map (entry s.a i)) } := by
  have key := matLoop_eq (loop2Body (i : Int)) n s
    (fun j => { s with b := (s.b.set i
      ((List.range j).map (entry s.a i) ++ (s.b.getD i []).drop j)) })
    (by
      show ({ s with b := s.b.set i ([] ++ (s.b.getD i []).drop 0) } : Mats) = s
      rw [List.nil_append, List.drop_zero, set_getD_self s.b i hib])
    (fun j hj => by
      beta_reduce
      have hlen : ((List.range j).map (entry s.a i) ++ (s.b.getD i []).drop j).length
          = n := (Jacobi.fill_length _ _ j (by omega)).trans hrow
      have e := copyBody_eq n i j
        { s with b := (s.b.set i
            ((List.range j).map (entry s.a i) ++ (s.b.getD i []).drop j)) }
        ha hi hj (by simpa using hib)
        (by
          show j < ((s.b.set i _).getD i []).length
          rw [getD_set_self _ _ _ hib, hlen]; exact hj)
      rw [e]
      simp only [getD_set_self _ _ _ hib, List.set_set,
        Jacobi.set_fill (entry s.a i) (s.b.getD i []) j (by omega)])
  rw [key]
  simp only [List.drop_of_length_le (le_of_eq hrow), List.append_nil]

theorem rows_of_square (n : Nat) (a : List (List ℚ)) (ha : Square n a) :
    (List.range n).map (fun i => (List.range n).map (entry a i)) = a := by
  apply List.ext_getElem?
  intro i
  by_cases hi : i < n
  · rw [List.getElem?_map, List.getElem?_range hi, Option.map_some',
      row_getElem? a i (by rw [ha.1]; exact hi)]
    congr 1
    exact Jacobi.map_getD_range (a.getD i []) n (ha.2 i hi)
  · rw [List.getElem?_eq_none (by simp; omega), List.getElem?_eq_none (by rw [ha.1]; omega)]

theorem loop2_eq (n : Nat) (s : Mats) (ha : Square n s.a) (hb : Square n s.b) :
    loop2 (n : Int) s = some { s with b := s.a } := by
  have key := matLoop_eq (fun i => forLoop 0 (n : Int) (loop2Body i)) n s
    (fun i => { s with b := ((List.range i).map
        (fun i => (List.range n).map (entry s.a i)) ++ s.b.drop i) })
    (by simp)
    (fun i hi => by
      beta_reduce
      have hlen : ((List.range i).map (fun i => (List.range n).map (entry s.a i))
          ++ s.b.drop i).length = n :=
        (fill_rows_length _ _ i (by rw [hb.1]; omega)).trans hb.1
      have e := copyRow_eq n i
        { s with b := ((List.range i).map
            (fun i => (List.range n).map (entry s.a i)) ++ s.b.drop i) }
        ha hi (by rw [hlen]; exact hi)
        (by
          show (((List.range i).map (fun i => (List.range n).map (entry s.a i))
            ++ s.b.drop i).getD i []).length = n
          rw [fill_rows_getD]; exact hb.2 i hi)
      rw [e]
      simp only [set_fill_rows (fun i => (List.range n).map (entry s.a i)) s.b i
        (by rw [hb.1]; exact hi)])
  unfold loop2
  rw [key]
  simp only [List.drop_of_length_le (le_of_eq hb.1), List.append_nil, rows_of_square n s.a ha]

theorem mxm_eq (n : Nat) (s : Mats) (ha : Square n s.a) (hb : Square n s.b)
    (hc : Square n s.c) :
    mxm (n : Int) s = some { a := s.a, b := s.a, c := matMul n s.a s.a } := by
  simp only [mxm, loop2_eq n s ha hb, Option.bind_eq_bind, Option.some_bind]
  exact loop3_eq n { s with b := s.a } ha ha hc

theorem matMul_get (n : Nat) (a b : List (List ℚ)) (i j : Nat) (hi : i < n) (hj : j < n) :
    get2 (matMul n a b) (i : Int) (j : Int)
      = some (∑ k in Finset.range n, entry a i k * entry b k j) := by
  refine get2_of _ i j ((List.range n).map (fun j => prodAt n a b i j)) _ ?_ ?_
  · simp only [matMul, List.getElem?_map, List.getElem?_range hi, Option.map_some']
  · simp only [List.getElem?_map, List.getElem?_range hj, Option.map_some', prodAt,
      Jacobi.sumTo_eq_sum]

/-- C12. Companion matrix product: for every order `n` and all `n × n` matrices
`a`, `b`, whatever the `n × n` matrix `c` holds beforehand, loop 3 terminates
without an out-of-range access, leaves `a` and `b` as they were and leaves
`c[i][j] = Σ_{k<n} a[i][k] * b[k][j]` for all `i, j < n`; run after loop 2, which
makes `b` a copy of `a`, it leaves `c = a * a`. -/
theorem C12_matrix_product (n : Nat) (s : Mats)
    (ha : Square n s.a) (hb : Square n s.b) (hc : Square n s.c) :
    (∃ s', loop3 (n : Int) s = some s' ∧ s'.a = s.a ∧ s'.b = s.b ∧
      ∀ i j : Nat, i < n → j < n →
        get2 s'.c (i : Int) (j : Int)
          = some (∑ k in Finset.range n, entry s.a i k * entry s.b k j)) ∧
    (∃ s', mxm (n : Int) s = some s' ∧ s'.a = s.a ∧ s'.b = s.a ∧
      ∀ i j : Nat, i < n → j < n →
        get2 s'.c (i : Int) (j : Int)
          = some (∑ k in Finset.range n, entry s.a i k * entry s.a k j)) :=
  ⟨⟨_, loop3_eq n s ha hb hc, rfl, rfl, fun i j hi hj => matMul_get n s.a s.b i j hi hj⟩,
    ⟨_, mxm_eq n s ha hb hc, rfl, rfl, fun i j hi hj => matMul_get n s.a s.a i j hi hj⟩⟩

/-- C12 at order `2`, with `c` holding arbitrary values. -/
theorem C12_matrix_product_witness :
    (Square 2 sample2.a ∧ Square 2 sample2.b ∧ Square 2 sample2.c) ∧
    ((∃ s', loop3 ((2 : Nat) : Int) sample2 = some s' ∧ s'.a = sample2.a ∧ s'.b = sample2.b ∧
      ∀ i j : Nat, i < 2 → j < 2 →
        get2 s'.c (i : Int) (j : Int)
          = some (∑ k in Finset.range 2, entry sample2.a i k * entry sample2.b k j)) ∧
    (∃ s', mxm ((2 : Nat) : Int) sample2 = some s' ∧ s'.a = sample2.a ∧ s'.b = sample2.a ∧
      ∀ i j : Nat, i < 2 → j < 2 →
        get2 s'.c (i : Int) (j : Int)
          = some (∑ k in Finset.range 2, entry sample2.a i k * entry sample2.a k j))) :=
  ⟨⟨⟨rfl, by decide⟩, ⟨rfl, by decide⟩, ⟨rfl, by decide⟩⟩,
    C12_matrix_product 2 sample2 ⟨rfl, by decide⟩ ⟨rfl, by decide⟩ ⟨rfl, by decide⟩⟩

end Mxm
